import Mathlib

/-!
Verification of the snapshot diffing and restore engine of `jw-ai-snapshot`
(`snapshot.js`).  The JavaScript source is shallowly embedded: pure string
processing becomes Lean functions over `String`/`List Char`, the filesystem
is a tree of named nodes, `fs` calls that may throw become `Except`, and the
stateful restore pass threads the destination tree explicitly.
-/

namespace Snapshot

/-! ### String utilities (JS semantics, executable) -/

/-- ASCII/JS whitespace used by `String.prototype.trim` (the characters that
occur in the inputs we model). -/
def isJsWs (c : Char) : Bool :=
  c = ' ' || c = '\t' || c = '\r' || c = '\n'

/-- `trim` on a character list: drop leading and trailing whitespace. -/
def trimChars (cs : List Char) : List Char :=
  ((cs.dropWhile isJsWs).reverse.dropWhile isJsWs).reverse

/-- JS `s.trim()`. -/
def jsTrim (s : String) : String := ⟨trimChars s.data⟩

/-- Split a character list at every occurrence of a separator character. -/
def splitOnChar (sep : Char) : List Char → List (List Char)
  | [] => [[]]
  | c :: rest =>
    if c = sep then [] :: splitOnChar sep rest
    else
      match splitOnChar sep rest with
      | l :: ls => (c :: l) :: ls
      | [] => [[c]]

/-- Split a character list at every newline (`\n`).  Combined with the later
`\r`-stripping in `jsSplitLines` this models `s.split(/\r?\n/)`. -/
def splitNl (cs : List Char) : List (List Char) := splitOnChar '\n' cs

/-- Drop one trailing carriage return, as the `\r?` of `split(/\r?\n/)`. -/
def dropTrailingCR (cs : List Char) : List Char :=
  match cs.reverse with
  | '\r' :: rest => rest.reverse
  | _ => cs

/-- JS `s.split(/\r?\n/)`. -/
def jsSplitLines (s : String) : List String :=
  (splitNl s.data).map (fun l => ⟨dropTrailingCR l⟩)

/-- JS `s.replace(/\/+$/, '')`: strip all trailing `/` characters. -/
def stripTrailingSlashes (s : String) : String :=
  ⟨(s.data.reverse.dropWhile (· = '/')).reverse⟩

/-- JS `s.startsWith(p)`. -/
def strStartsWith (s p : String) : Bool := p.data.isPrefixOf s.data

/-- JS `s.endsWith(p)`. -/
def strEndsWith (s p : String) : Bool := p.data.reverse.isPrefixOf s.data.reverse

/-- Substring test on character lists. -/
def listInfix (needle : List Char) : List Char → Bool
  | [] => needle.isEmpty
  | c :: rest => needle.isPrefixOf (c :: rest) || listInfix needle rest

/-- JS `s.includes(sub)` (substring containment). -/
def strContainsSub (s sub : String) : Bool := listInfix sub.data s.data

/-- JS `s.toLowerCase()` (ASCII range, enough for the section labels). -/
def jsToLower (s : String) : String := ⟨s.data.map Char.toLower⟩

/-- Split a path string at `/` separators (segments of a relative path). -/
def splitSlash (s : String) : List String :=
  (splitOnChar '/' s.data).map (⟨·⟩)

/-- Join path segments with `/`, as `path.join` produces for relative paths. -/
def joinSegs : List String → String
  | [] => ""
  | [s] => s
  | s :: rest => s ++ "/" ++ joinSegs rest

/-- Lexicographic `≤` on character lists (byte-wise path order). -/
def lexLe : List Char → List Char → Bool
  | [], _ => true
  | _ :: _, [] => false
  | a :: as, b :: bs =>
    if a < b then true
    else if b < a then false
    else lexLe as bs

/-- Lexicographic path order on strings. -/
def pathLe (a b : String) : Bool := lexLe a.data b.data

/-- Whether a list of paths is lexicographically sorted. -/
def pathsSorted : List String → Bool
  | [] => true
  | [_] => true
  | a :: b :: rest => pathLe a b && pathsSorted (b :: rest)

/-! ### Filesystem model

A directory tree: files carry their content and a readability flag (a file
whose `stat` succeeds but whose `readFileSync` throws has `readable = false`);
`broken` stands for an entry on which `fs.statSync` itself throws.  Directory
entries are an ordered list, the order `fs.readdirSync` happens to return. -/

mutual
inductive FsNode where
  | file (content : String) (readable : Bool) : FsNode
  | dir (entries : FsEntries) : FsNode
  | broken : FsNode
deriving DecidableEq, Repr

inductive FsEntries where
  | nil : FsEntries
  | cons (name : String) (node : FsNode) (rest : FsEntries) : FsEntries
deriving DecidableEq, Repr
end

/-- The constant `SNAPSHOTS_DIR_NAME` from `snapshot.js`. -/
def SNAPSHOTS_DIR_NAME : String := "__snapshots__"

/-! ### Ignore Resolver (`loadIgnoreList`)

The JS function reads `.gitignore` and `.snapshotignore` from disk; the
embedding receives the two file contents directly (`none` = the file does not
exist).  A JS `Set` of strings is modelled as an insertion-ordered duplicate
free list: `add` appends when absent, `delete` removes. -/

def setAdd (s : List String) (x : String) : List String :=
  if s.contains x then s else s ++ [x]

def setDelete (s : List String) (x : String) : List String :=
  s.filter (fun y => y != x)

/-- The `.gitignore` loop of `loadIgnoreList`: skip blank and `#` lines, strip
trailing slashes, add to the set. -/
def addGitignoreLines (ignoreSet : List String) (content : String) : List String :=
  (jsSplitLines content).foldl
    (fun st line =>
      let trimmed := jsTrim line
      if trimmed.data.isEmpty then st
      else if strStartsWith trimmed "#" then st
      else setAdd st (stripTrailingSlashes trimmed))
    ignoreSet

/-- The two-section parse state of `.snapshotignore` (`currentSection`). -/
inductive SectionMode where
  | noSection : SectionMode
  | always : SectionMode
  | never : SectionMode
deriving DecidableEq, Repr

/-- The `.snapshotignore` parsing loop: returns the `ALWAYS SNAPSHOT` and
`NEVER SNAPSHOT` pattern lists in order of appearance. -/
def parseSnapshotignore (content : String) : List String × List String :=
  let step :=
    fun (st : SectionMode × List String × List String) (line : String) =>
      let (sec, alw, nev) := st
      let trimmed := jsTrim line
      if trimmed.data.isEmpty then st
      else if strStartsWith trimmed "#" && !strStartsWith trimmed "##" then st
      else if trimmed = "## ALWAYS SNAPSHOT (Exceptions to .gitignore)"
          || strContainsSub trimmed "## ALWAYS SNAPSHOT" then
        (SectionMode.always, alw, nev)
      else if trimmed = "## NEVER SNAPSHOT (Snapshot-specific ignores)"
          || strContainsSub trimmed "## NEVER SNAPSHOT" then
        (SectionMode.never, alw, nev)
      else if strStartsWith trimmed "#" then st
      else
        let cleanPattern := stripTrailingSlashes trimmed
        match sec with
        | SectionMode.always => (sec, alw ++ [cleanPattern], nev)
        | SectionMode.never => (sec, alw, nev ++ [cleanPattern])
        | SectionMode.noSection => st
  let res := (jsSplitLines content).foldl step (SectionMode.noSection, [], [])
  (res.2.1, res.2.2)

/-- The tool's own support files, protected from `NEVER SNAPSHOT` in dev mode. -/
def toolFiles : List String :=
  ["snapshot.js", ".snapshotignore", "package.json", "package-lock.json",
   "go.mod", "go.sum"]

/-- `loadIgnoreList(projectRoot, devMode)`: base `.gitignore` patterns (unless
dev mode), then `ALWAYS SNAPSHOT` removals (pattern and its `/`-suffixed
variant), then `NEVER SNAPSHOT` additions (skipping protected tool files in
dev mode), and finally the unconditional `__snapshots__` entry. -/
def loadIgnoreList (gitignore : Option String) (snapshotignore : Option String)
    (devMode : Bool) : List String :=
  let ignoreSet : List String := []
  let ignoreSet :=
    match gitignore with
    | some content => if !devMode then addGitignoreLines ignoreSet content else ignoreSet
    | none => ignoreSet
  let ignoreSet :=
    match snapshotignore with
    | some content =>
      let parsed := parseSnapshotignore content
      let afterAlways :=
        parsed.1.foldl (fun st p => setDelete (setDelete st p) (p ++ "/")) ignoreSet
      parsed.2.foldl
        (fun st p => if devMode && toolFiles.contains p then st else setAdd st p)
        afterAlways
    | none => ignoreSet
  setAdd ignoreSet SNAPSHOTS_DIR_NAME

/-! ### Path Matcher (`isIgnored`) -/

/-- Matcher for the regex the JS code compiles from a wildcard pattern
(`^` + pattern with regex metacharacters escaped and `*` turned into `.*`
+ `$`): every non-`*` character is literal and `*` matches any character
sequence.  (The JS escape list leaves `?` unescaped as well; no pattern in the
repository or in the claims uses `?`, so only `*` is given regex meaning.) -/
def globMatch : List Char → List Char → Bool
  | [], s => s.isEmpty
  | '*' :: ps, s => s.tails.any (fun t => globMatch ps t)
  | p :: ps, s =>
    match s with
    | [] => false
    | c :: s' => p = c && globMatch ps s'

/-- `isIgnored(relPath, ignoreSet)`: normalize `\` to `/`, then any pattern
matches — wildcard patterns against the whole path and each segment,
`dir/` patterns by equality with the bare name or as leading directory,
plain patterns by equality or as leading directory. -/
def isIgnored (relPath : String) (ignoreSet : List String) : Bool :=
  let normalized : String := ⟨relPath.data.map (fun c => if c = '\\' then '/' else c)⟩
  ignoreSet.any (fun pattern =>
    if strContainsSub pattern "*" then
      globMatch pattern.data normalized.data
        || (splitSlash normalized).any (fun part => globMatch pattern.data part.data)
    else if strEndsWith pattern "/" then
      normalized = ⟨pattern.data.dropLast⟩ || strStartsWith normalized pattern
    else
      normalized = pattern || strStartsWith normalized (pattern ++ "/"))

/-! ### Tree Lister (`listFilesRecursively`)

The walk of one directory runs inside a single `try`: the first entry whose
`statSync` throws (`broken`) ends the loop for that directory, keeping the
files accumulated so far; a recursive call contains its own failures.  An
entry is skipped before `stat` when it is the `__snapshots__` directory at
the walk root or when the matcher excludes it. -/

def listEntries : FsEntries → List String → List String → List String
  | FsEntries.nil, _, _ => []
  | FsEntries.cons name node rest, pfx, ign =>
    if pfx = [] && name = SNAPSHOTS_DIR_NAME then listEntries rest pfx ign
    else
      let rel := joinSegs (pfx ++ [name])
      if isIgnored rel ign then listEntries rest pfx ign
      else
        match node with
        | FsNode.broken => []
        | FsNode.file _ _ => rel :: listEntries rest pfx ign
        | FsNode.dir es => listEntries es (pfx ++ [name]) ign ++ listEntries rest pfx ign

/-- `listFilesRecursively(dir, base, ignoreSet)` from a root node.  When the
root is not a readable directory, `readdirSync` throws and the `catch`
returns the empty accumulator. -/
def listFilesRecursively (root : FsNode) (ign : List String) : List String :=
  match root with
  | FsNode.dir es => listEntries es [] ign
  | _ => []

/-! ### Content Hasher (`hashFile`) and path lookup -/

/-- First entry with the given name in a directory (readdir resolution). -/
def findNode : FsEntries → String → Option FsNode
  | FsEntries.nil, _ => none
  | FsEntries.cons name node rest, s =>
    if name = s then some node else findNode rest s

/-- Replace the first entry with the given name (position preserved). -/
def replaceNode : FsEntries → String → FsNode → FsEntries
  | FsEntries.nil, _, _ => FsEntries.nil
  | FsEntries.cons name node rest, s, n' =>
    if name = s then FsEntries.cons name n' rest
    else FsEntries.cons name node (replaceNode rest s n')

/-- Append a new entry at the end of the directory (readdir order of a newly
created entry). -/
def appendEntry : FsEntries → String → FsNode → FsEntries
  | FsEntries.nil, s, n => FsEntries.cons s n FsEntries.nil
  | FsEntries.cons name node rest, s, n =>
    FsEntries.cons name node (appendEntry rest s n)

/-- Remove the first entry with the given name. -/
def dropEntry : FsEntries → String → FsEntries
  | FsEntries.nil, _ => FsEntries.nil
  | FsEntries.cons name node rest, s =>
    if name = s then rest else FsEntries.cons name node (dropEntry rest s)

/-- Resolve a relative path (as segments) inside a directory entry list:
descend through directories, segment by segment. -/
def lookupSegs : List String → FsEntries → Option FsNode
  | [], _ => none
  | [s], es => findNode es s
  | s :: s2 :: rest, es =>
    match findNode es s with
    | some (FsNode.dir sub) => lookupSegs (s2 :: rest) sub
    | _ => none

/-- Resolve a relative path from a root node. -/
def lookupPath (root : FsNode) (segs : List String) : Option FsNode :=
  match root with
  | FsNode.dir es => lookupSegs segs es
  | _ => none

/-- `fs.existsSync`: false when the path is absent or `stat` fails on it. -/
def existsPath (root : FsNode) (rel : String) : Bool :=
  match lookupPath root (splitSlash rel) with
  | some FsNode.broken => false
  | some _ => true
  | none => false

/-- The SHA-1 hex digest is modelled as an injective digest function; content
equality is exactly digest equality, which is all the code uses it for. -/
def sha1Hex (content : String) : String := content

/-- Modelled Node runtime message for a failed `readFileSync`. -/
def readErrMsg (rel : String) : String :=
  "EACCES: permission denied, open " ++ rel

/-- `hashFile(filePath)`: read the file and digest it; any failure is a thrown
error, modelled as `Except.error` carrying the runtime message. -/
def hashFileAt (root : FsNode) (rel : String) : Except String String :=
  match lookupPath root (splitSlash rel) with
  | some (FsNode.file c true) => Except.ok (sha1Hex c)
  | some (FsNode.file _ false) => Except.error (readErrMsg rel)
  | some (FsNode.dir _) =>
    Except.error ("EISDIR: illegal operation on a directory, read " ++ rel)
  | some FsNode.broken => Except.error (readErrMsg rel)
  | none => Except.error ("ENOENT: no such file or directory, open " ++ rel)

/-- Whether an `fs` operation succeeded (did not throw). -/
def exceptIsOk {ε α : Type} : Except ε α → Bool
  | Except.ok _ => true
  | Except.error _ => false

/-- Content of the file at a path (only used after a successful hash). -/
def contentAt (root : FsNode) (rel : String) : String :=
  match lookupPath root (splitSlash rel) with
  | some (FsNode.file c _) => c
  | _ => ""

/-- `content.split(/\r?\n/).length`. -/
def jsLineCount (s : String) : Nat := (jsSplitLines s).length

def natAbsDiff (a b : Nat) : Nat := if a ≤ b then b - a else a - b

/-! ### Snapshot Differ (`compareSnapshots`) -/

/-- One entry of the diff result's `files` array.  A `modified` entry also
carries the unified patch produced by the external `diff` npm package, which
is opaque third-party output and not modelled; `lines_changed` is. -/
structure FileEntry where
  file : String
  status : String
  linesChanged : Option Nat := none
  message : Option String := none
deriving DecidableEq, Repr

/-- Insertion-order deduplication: iteration order of
`new Set([...a, ...b])`. -/
def dedupFirstAux : List String → List String → List String
  | [], _ => []
  | x :: xs, seen =>
    if seen.contains x then dedupFirstAux xs seen
    else x :: dedupFirstAux xs (x :: seen)

def dedupFirst (l : List String) : List String := dedupFirstAux l []

/-- The classification body of the `allFiles.forEach` loop: at most one entry
is pushed per path.  Errors thrown while hashing or reading either side are
caught and recorded as an `error_comparing` entry with the message. -/
def classifyEntry (snapT currT : FsNode) (snapFiles currFiles : List String)
    (relPath : String) : Option FileEntry :=
  let inSnap := snapFiles.contains relPath
  let inCurr := currFiles.contains relPath
  if inSnap && !inCurr then some { file := relPath, status := "removed" }
  else if !inSnap && inCurr then some { file := relPath, status := "added" }
  else if inSnap && inCurr then
    match hashFileAt snapT relPath with
    | Except.error e =>
      some { file := relPath, status := "error_comparing", message := some e }
    | Except.ok snapHash =>
      match hashFileAt currT relPath with
      | Except.error e =>
        some { file := relPath, status := "error_comparing", message := some e }
      | Except.ok currHash =>
        if snapHash ≠ currHash then
          some { file := relPath, status := "modified",
                 linesChanged := some (natAbsDiff
                   (jsLineCount (contentAt currT relPath))
                   (jsLineCount (contentAt snapT relPath))) }
        else none
  else none

/-- The `allFiles.forEach` loop pushing entries onto `result.files`. -/
def compareLoop (snapT currT : FsNode) (snapFiles currFiles : List String) :
    List String → List FileEntry
  | [] => []
  | p :: rest =>
    match classifyEntry snapT currT snapFiles currFiles p with
    | some e => e :: compareLoop snapT currT snapFiles currFiles rest
    | none => compareLoop snapT currT snapFiles currFiles rest

/-- `compareSnapshots(snapshotPath, currentPath, ignoreSet)`, reduced to the
`files` array of the result (the `base`/`compare` name fields are the roots'
basenames and carry no claim content). -/
def compareSnapshots (snapT currT : FsNode) (ign : List String) : List FileEntry :=
  let snapshotFiles := listFilesRecursively snapT ign
  let currentFiles := listFilesRecursively currT ign
  let allFiles := dedupFirst (snapshotFiles ++ currentFiles)
  compareLoop snapT currT snapshotFiles currentFiles allFiles

/-! ### Change-Manifest Recorder (`appendChangeManifest`) -/

/-- The `addFileSection` helper: a non-empty bucket contributes a labeled
header, at most the first 10 entries, a single `...and N more` summary line
when the bucket exceeds 10, and a closing blank line; an empty bucket
contributes nothing. -/
def addFileSection (sectionName : String) (files : List String) : List String :=
  if files.length > 0 then
    ((sectionName ++ ":") ::
      (if files.length ≤ 10 then files.map (fun f => "  - " ++ f)
       else (files.take 10).map (fun f => "  - " ++ f)
         ++ ["  ...and " ++ toString (files.length - 10) ++ " more "
             ++ jsToLower sectionName ++ " files"]))
      ++ [""]
  else []

/-! ### Restorer (`restoreSnapshot`)

`fs` mutations are modelled as functional updates of the destination tree.
A newly created entry is appended at the end of its directory's entry list. -/

/-- `mkdirSync(dirname, { recursive: true })` followed by `copyFileSync`:
descend (creating missing directories), overwrite or append the file.  A
non-directory met on the way, or a directory at the file position, makes the
JS calls throw (`Except.error`). -/
def writeSegs : List String → FsEntries → String → Except Unit FsEntries
  | [], _, _ => Except.error ()
  | [s], es, c =>
    match findNode es s with
    | none => Except.ok (appendEntry es s (FsNode.file c true))
    | some (FsNode.file _ _) => Except.ok (replaceNode es s (FsNode.file c true))
    | some (FsNode.dir _) => Except.error ()
    | some FsNode.broken => Except.error ()
  | s :: s2 :: rest, es, c =>
    match findNode es s with
    | none =>
      match writeSegs (s2 :: rest) FsEntries.nil c with
      | Except.ok sub => Except.ok (appendEntry es s (FsNode.dir sub))
      | Except.error e => Except.error e
    | some (FsNode.dir sub) =>
      match writeSegs (s2 :: rest) sub c with
      | Except.ok sub' => Except.ok (replaceNode es s (FsNode.dir sub'))
      | Except.error e => Except.error e
    | some _ => Except.error ()

def writeFileAt (root : FsNode) (rel : String) (c : String) : Except Unit FsNode :=
  match root with
  | FsNode.dir es => (writeSegs (splitSlash rel) es c).map FsNode.dir
  | _ => Except.error ()

/-- `unlinkSync` with its failure swallowed by the caller: removing a
directory (or a missing path) leaves the tree unchanged. -/
def removeSegs : List String → FsEntries → FsEntries
  | [], es => es
  | [s], es =>
    match findNode es s with
    | some (FsNode.dir _) => es
    | some _ => dropEntry es s
    | none => es
  | s :: s2 :: rest, es =>
    match findNode es s with
    | some (FsNode.dir sub) =>
      replaceNode es s (FsNode.dir (removeSegs (s2 :: rest) sub))
    | _ => es

def removeAt (root : FsNode) (rel : String) : FsNode :=
  match root with
  | FsNode.dir es => FsNode.dir (removeSegs (splitSlash rel) es)
  | _ => root

structure RestoreCounts where
  restored : Nat
  skipped : Nat
  deleted : Nat
deriving DecidableEq, Repr

/-- One iteration of the `snapshotFiles.forEach` loop: hash the snapshot file
and (when it exists) the destination file; equal hashes count as skipped;
otherwise restore (a real write only in live mode); any error thrown along
the way is caught and counted as skipped. -/
def restoreStep (snapT : FsNode) (dryRun : Bool) (st : FsNode × Nat × Nat)
    (relPath : String) : FsNode × Nat × Nat :=
  let dest := st.1
  let restored := st.2.1
  let skipped := st.2.2
  match hashFileAt snapT relPath with
  | Except.error _ => (dest, restored, skipped + 1)
  | Except.ok snapHash =>
    let destHashE : Except String (Option String) :=
      if existsPath dest relPath then (hashFileAt dest relPath).map some
      else Except.ok none
    match destHashE with
    | Except.error _ => (dest, restored, skipped + 1)
    | Except.ok destHash =>
      if destHash = some snapHash then (dest, restored, skipped + 1)
      else if dryRun then (dest, restored + 1, skipped)
      else
        match writeFileAt dest relPath (contentAt snapT relPath) with
        | Except.ok dest' => (dest', restored + 1, skipped)
        | Except.error _ => (dest, restored, skipped + 1)

/-- `restoreSnapshot(snapshotPath, currentPath, ignoreSet, dryRun)`: restore
pass over the snapshot's files, then list the (post-write) destination and
delete every listed file not present in the snapshot's file set.  `deleted`
is incremented for every such path even when `unlinkSync` fails; in dry-run
mode neither pass mutates anything. -/
def restoreSnapshot (snapT destT : FsNode) (ign : List String) (dryRun : Bool) :
    FsNode × RestoreCounts :=
  let snapshotFiles := listFilesRecursively snapT ign
  let phase1 := snapshotFiles.foldl (restoreStep snapT dryRun) (destT, 0, 0)
  let destW := phase1.1
  let currentFiles := listFilesRecursively destW ign
  let toDelete := currentFiles.filter (fun relPath => !snapshotFiles.contains relPath)
  let phase2 := toDelete.foldl
    (fun (st : FsNode × Nat) relPath =>
      if dryRun then (st.1, st.2 + 1)
      else (removeAt st.1 relPath, st.2 + 1))
    (destW, 0)
  (phase2.1, ⟨phase1.2.1, phase1.2.2, phase2.2⟩)

/-! ### Regression Orchestrator (the `--analyze-regression` branch of `run`) -/

def pad4 (n : Nat) : String :=
  ⟨List.replicate (4 - (toString n).length) '0' ++ (toString n).data⟩

/-- `findSnapshotByIndex(snapshotsRoot, targetIndex)` over the directory
listing of the snapshots root. -/
def findSnapshotByIndex (folders : List String) (targetIndex : Nat) : Option String :=
  folders.find? (fun f => strStartsWith f (pad4 targetIndex ++ "_"))

def baseNotFoundLine (baseIndex : Nat) : String :=
  "❌ Base snapshot folder not found for index " ++ toString baseIndex

def noSuccessorLine1 (baseIndex : Nat) : String :=
  "❌ No successor snapshot found. Snapshot " ++ toString baseIndex
    ++ " appears to be the latest."

def noSuccessorLine2 : String :=
  "   Cannot analyze regression - need at least one snapshot after the known-good state."

/-- Observable outcome of the `--analyze-regression` branch: process exit
code, `console.error` lines, and the names of output artifacts written into
the snapshots root. -/
structure RunOutcome where
  exitCode : Nat
  errLines : List String
  artifacts : List String
deriving DecidableEq, Repr

/-- Lines 853-908 of `run` in `snapshot.js`: resolve the base folder (exit 1
with the base-not-found line if absent), resolve the `baseIndex + 1` folder
(exit 1 with the two no-successor lines if absent, writing nothing), else
write the causal diff JSON, the cumulative diff JSON and the regression
analysis prompt. -/
def analyzeRegressionRun (folders : List String) (baseIndex : Nat) : RunOutcome :=
  match findSnapshotByIndex folders baseIndex with
  | none => ⟨1, [baseNotFoundLine baseIndex], []⟩
  | some _ =>
    match findSnapshotByIndex folders (baseIndex + 1) with
    | none => ⟨1, [noSuccessorLine1 baseIndex, noSuccessorLine2], []⟩
    | some _ =>
      ⟨0, [],
        ["regression_causal_" ++ pad4 baseIndex ++ "_to_" ++ pad4 (baseIndex + 1) ++ ".json",
         "regression_cumulative_" ++ pad4 baseIndex ++ "_to_current.json",
         "regression_analysis_" ++ pad4 baseIndex ++ ".md"]⟩

/-! ### Well-formedness of filesystem trees

Real directory entries have non-empty, separator-free names, unique within
their directory.  `clean` additionally rules out the failure modes (`broken`
entries and unreadable files). -/

/-- A legal directory entry name: non-empty and without `/`. -/
def validNameB (s : String) : Bool := !s.data.isEmpty && decide ('/' ∉ s.data)

def entryNames : FsEntries → List String
  | FsEntries.nil => []
  | FsEntries.cons name _ rest => name :: entryNames rest

def wfEntries : FsEntries → Bool
  | FsEntries.nil => true
  | FsEntries.cons name node rest =>
    validNameB name && !(entryNames rest).contains name &&
      (match node with
       | FsNode.dir es => wfEntries es
       | _ => true) && wfEntries rest

def wfNode : FsNode → Bool
  | FsNode.dir es => wfEntries es
  | _ => true

def cleanEntries : FsEntries → Bool
  | FsEntries.nil => true
  | FsEntries.cons _ node rest =>
    (match node with
     | FsNode.file _ r => r
     | FsNode.dir es => cleanEntries es
     | FsNode.broken => false) && cleanEntries rest

def cleanNode : FsNode → Bool
  | FsNode.file _ r => r
  | FsNode.dir es => cleanEntries es
  | FsNode.broken => false

/-- Concatenation of directory entry lists (to talk about an entry's position
in readdir order). -/
def entsAppend : FsEntries → FsEntries → FsEntries
  | FsEntries.nil, b => b
  | FsEntries.cons n v r, b => FsEntries.cons n v (entsAppend r b)

/-- The walker skips an entry (before `stat`) when it is the snapshots
directory at the walk root or when the matcher excludes it. -/
def entrySkipped (pfx : List String) (ign : List String) (name : String) : Bool :=
  (decide (pfx = []) && name = SNAPSHOTS_DIR_NAME)
    || isIgnored (joinSegs (pfx ++ [name])) ign

/-- No directly contained entry of the list makes the directory loop throw:
every `broken` entry is skipped before its `stat`. -/
def noAbortIn (pfx : List String) (ign : List String) : FsEntries → Bool
  | FsEntries.nil => true
  | FsEntries.cons n v r =>
    (match v with
     | FsNode.broken => entrySkipped pfx ign n
     | _ => true) && noAbortIn pfx ign r

/-- The destination can accept a file write at the given path: every proper
prefix resolves to a directory or to nothing, and the path itself to a file
or to nothing. -/
def pathCompatible : List String → FsEntries → Bool
  | [], _ => false
  | [s], es =>
    match findNode es s with
    | none => true
    | some (FsNode.file _ _) => true
    | some _ => false
  | s :: s2 :: rest, es =>
    match findNode es s with
    | none => true
    | some (FsNode.dir sub) => pathCompatible (s2 :: rest) sub
    | some _ => false

end Snapshot

namespace Snapshot

/-! ### Basic lemmas about the set model -/

theorem contains_iff_mem (l : List String) (x : String) :
    l.contains x = true ↔ x ∈ l := by
  induction l with
  | nil => simp [List.contains]
  | cons a l ih =>
    simp only [List.contains] at ih ⊢
    rw [List.elem_cons]
    constructor
    · intro h
      split at h
      · rename_i heq
        exact (beq_iff_eq.mp heq : x = a) ▸ List.mem_cons_self _ _
      · exact List.mem_cons_of_mem _ (ih.mp h)
    · intro h
      rcases List.mem_cons.mp h with h | h
      · simp [h]
      · split
        · rfl
        · exact ih.mpr h

theorem mem_setAdd_self (s : List String) (x : String) : x ∈ setAdd s x := by
  unfold setAdd
  split
  · exact (contains_iff_mem s x).mp (by assumption)
  · exact List.mem_append_right _ (List.mem_singleton.mpr rfl)

theorem mem_setAdd_of_mem {s : List String} {x : String} (y : String)
    (h : x ∈ s) : x ∈ setAdd s y := by
  unfold setAdd
  split
  · exact h
  · exact List.mem_append_left _ h

theorem never_fold_preserve (dev : Bool) (l : List String) :
    ∀ (acc : List String) (x : String), x ∈ acc →
      x ∈ l.foldl
        (fun st p => if dev && toolFiles.contains p then st else setAdd st p) acc := by
  induction l with
  | nil => intro acc x h; simpa using h
  | cons a l ih =>
    intro acc x h
    simp only [List.foldl_cons]
    apply ih
    split
    · exact h
    · exact mem_setAdd_of_mem _ h

theorem never_fold_mem (dev : Bool) (l : List String) :
    ∀ (acc : List String) (p : String), p ∈ l → ¬(dev = true ∧ p ∈ toolFiles) →
      p ∈ l.foldl
        (fun st p => if dev && toolFiles.contains p then st else setAdd st p) acc := by
  induction l with
  | nil => intro acc p hp; exact absurd hp (List.not_mem_nil p)
  | cons a l ih =>
    intro acc p hp hprot
    simp only [List.foldl_cons]
    rcases List.mem_cons.mp hp with h | h
    · subst h
      have hcond : (dev && toolFiles.contains p) = false := by
        cases hdev : dev with
        | false => rfl
        | true =>
          cases hc : toolFiles.contains p with
          | false => rfl
          | true => exact absurd ⟨rfl, (contains_iff_mem _ _).mp hc⟩ (hdev ▸ hprot)
      rw [hcond]
      simp only [Bool.false_eq_true, if_false]
      exact never_fold_preserve dev l _ p (mem_setAdd_self acc p)
    · exact ih _ p h hprot

/-- C1: override application order is fixed — base rules, then `ALWAYS
SNAPSHOT` removals, then `NEVER SNAPSHOT` additions, so a `NEVER SNAPSHOT`
pattern (unless dev-mode protected) is always in the resolved set, and on the
spec's scenario a base rule `build/` plus `ALWAYS` entry `build/` leaves
`build/app.js` unexcluded while an additional `NEVER` entry `build/` excludes
it again (last-applied wins). -/
theorem never_include_final_precedence :
    (∀ (g : Option String) (si : String) (dev : Bool) (p : String),
        p ∈ (parseSnapshotignore si).2 → ¬(dev = true ∧ p ∈ toolFiles) →
        p ∈ loadIgnoreList g (some si) dev)
    ∧ isIgnored "build/app.js"
        (loadIgnoreList (some "build/\n")
          (some "## ALWAYS SNAPSHOT (Exceptions to .gitignore)\nbuild/\n") false) = false
    ∧ isIgnored "build/app.js"
        (loadIgnoreList (some "build/\n")
          (some ("## ALWAYS SNAPSHOT (Exceptions to .gitignore)\nbuild/\n"
            ++ "## NEVER SNAPSHOT (Snapshot-specific ignores)\nbuild/\n")) false) = true := by
  refine ⟨?_, by decide, by decide⟩
  intro g si dev p hp hprot
  unfold loadIgnoreList
  apply mem_setAdd_of_mem
  exact never_fold_mem dev _ _ p hp hprot

/-- Witness for C1 at a concrete override file. -/
theorem never_include_final_precedence_witness :
    "foo" ∈ loadIgnoreList (some "") (some "## NEVER SNAPSHOT\nfoo\n") false :=
  never_include_final_precedence.1 (some "") "## NEVER SNAPSHOT\nfoo\n" false "foo"
    (by decide) (by decide)

/-- C6: an empty manifest bucket renders nothing; a bucket of 1–10 entries
renders the header, every entry and a closing blank line (no summary line);
a bucket of more than 10 entries renders the header, exactly the first 10
entries and exactly one summary line stating the omitted count. -/
theorem manifest_bucket_rendering :
    ∀ (sectionName : String) (files : List String),
      (files = [] → addFileSection sectionName files = [])
      ∧ (files ≠ [] → files.length ≤ 10 →
          addFileSection sectionName files
            = (sectionName ++ ":") :: (files.map (fun f => "  - " ++ f) ++ [""]))
      ∧ (files.length > 10 →
          addFileSection sectionName files
            = (sectionName ++ ":") :: ((files.take 10).map (fun f => "  - " ++ f)
              ++ ["  ...and " ++ toString (files.length - 10) ++ " more "
                  ++ jsToLower sectionName ++ " files"] ++ [""])) := by
  intro name files
  refine ⟨?_, ?_, ?_⟩
  · intro h; subst h; rfl
  · intro hne hle
    unfold addFileSection
    rw [if_pos (List.length_pos.mpr hne), if_pos hle]
    simp
  · intro hgt
    unfold addFileSection
    rw [if_pos (Nat.lt_of_lt_of_le (by norm_num) hgt), if_neg (by omega)]
    simp

/-- Witness for C6: a `Changed` bucket with exactly 11 entries renders the
first 10 entries plus the single summary line `  ...and 1 more changed
files`. -/
theorem manifest_bucket_rendering_witness :
    addFileSection "Changed"
        ["f1","f2","f3","f4","f5","f6","f7","f8","f9","f10","f11"]
      = ("Changed:"
          :: ((["f1","f2","f3","f4","f5","f6","f7","f8","f9","f10","f11"].take 10).map
                (fun f => "  - " ++ f)
            ++ ["  ...and "
                ++ toString (["f1","f2","f3","f4","f5","f6","f7","f8","f9","f10","f11"].length - 10)
                ++ " more " ++ jsToLower "Changed" ++ " files"] ++ [""]))
    ∧ "  ...and "
        ++ toString (["f1","f2","f3","f4","f5","f6","f7","f8","f9","f10","f11"].length - 10)
        ++ " more " ++ jsToLower "Changed" ++ " files"
      = "  ...and 1 more changed files" :=
  ⟨(manifest_bucket_rendering "Changed"
      ["f1","f2","f3","f4","f5","f6","f7","f8","f9","f10","f11"]).2.2 (by decide),
   by decide⟩

/-- C8: when the base snapshot folder exists but no folder with index
`base + 1` exists, the `--analyze-regression` branch exits with status 1,
reports the two-line no-successor message (distinct from the base-not-found
report), and writes no output artifact. -/
theorem regression_no_successor_behavior :
    ∀ (folders : List String) (baseIndex : Nat),
      (findSnapshotByIndex folders baseIndex).isSome = true →
      findSnapshotByIndex folders (baseIndex + 1) = none →
      (analyzeRegressionRun folders baseIndex).exitCode = 1
      ∧ (analyzeRegressionRun folders baseIndex).artifacts = []
      ∧ (analyzeRegressionRun folders baseIndex).errLines
          = [noSuccessorLine1 baseIndex, noSuccessorLine2]
      ∧ (analyzeRegressionRun folders baseIndex).errLines
          ≠ [baseNotFoundLine baseIndex] := by
  intro folders b hbase hnext
  obtain ⟨f, hf⟩ := Option.isSome_iff_exists.mp hbase
  unfold analyzeRegressionRun
  rw [hf, hnext]
  refine ⟨rfl, rfl, rfl, ?_⟩
  intro h
  have hlen := congrArg List.length h
  simp at hlen

/-- Witness for C8: snapshot `0001_a` exists, no `0002_` folder does. -/
theorem regression_no_successor_behavior_witness :
    (analyzeRegressionRun ["0001_a"] 1).exitCode = 1
    ∧ (analyzeRegressionRun ["0001_a"] 1).artifacts = []
    ∧ (analyzeRegressionRun ["0001_a"] 1).errLines
        = [noSuccessorLine1 1, noSuccessorLine2]
    ∧ (analyzeRegressionRun ["0001_a"] 1).errLines ≠ [baseNotFoundLine 1] :=
  regression_no_successor_behavior ["0001_a"] 1 (by decide) (by decide)

/-! ### Path prefix lemmas for the `__snapshots__` exclusion (C2) -/

theorem joinSegs_cons (a : String) (l : List String) (hl : l ≠ []) :
    joinSegs (a :: l) = a ++ "/" ++ joinSegs l := by
  cases l with
  | nil => exact absurd rfl hl
  | cons b t => rfl

theorem listEntries_prefix (es : FsEntries) (a : String) (pfx ign : List String)
    (p : String) (h : p ∈ listEntries es (a :: pfx) ign) :
    (a ++ "/").data <+: p.data := by
  match es with
  | FsEntries.nil => simp [listEntries] at h
  | FsEntries.cons name node rest =>
    simp only [listEntries] at h
    split at h
    · exact listEntries_prefix rest a pfx ign p h
    · split at h
      · exact listEntries_prefix rest a pfx ign p h
      · cases node with
        | broken => simp at h
        | file c r =>
          rcases List.mem_cons.mp h with h | h
          · subst h
            rw [List.cons_append, joinSegs_cons a (pfx ++ [name]) (by simp)]
            rw [String.data_append]
            exact List.prefix_append _ _
          · exact listEntries_prefix rest a pfx ign p h
        | dir es' =>
          rcases List.mem_append.mp h with h | h
          · have h' : p ∈ listEntries es' (a :: (pfx ++ [name])) ign := by
              simpa using h
            exact listEntries_prefix es' a (pfx ++ [name]) ign p h'
          · exact listEntries_prefix rest a pfx ign p h

theorem takeWhile_before_slash (l t : List Char) (hl : '/' ∉ l) :
    (l ++ '/' :: t).takeWhile (fun c => c != '/') = l := by
  induction l with
  | nil => simp
  | cons c l ih =>
    have hc : c ≠ '/' := fun h => hl (h ▸ List.mem_cons_self c l)
    have hl' : '/' ∉ l := fun h => hl (List.mem_cons_of_mem c h)
    simp only [List.cons_append, List.takeWhile_cons]
    rw [if_pos (by simpa using hc), ih hl']

theorem prefix_slash_unique (p l₁ l₂ : List Char)
    (h₁ : (l₁ ++ ['/']) <+: p) (h₂ : (l₂ ++ ['/']) <+: p)
    (n₁ : '/' ∉ l₁) (n₂ : '/' ∉ l₂) : l₁ = l₂ := by
  obtain ⟨t₁, ht₁⟩ := h₁
  obtain ⟨t₂, ht₂⟩ := h₂
  have e₁ : p = l₁ ++ '/' :: t₁ := by rw [← ht₁]; simp
  have e₂ : p = l₂ ++ '/' :: t₂ := by rw [← ht₂]; simp
  have w₁ : p.takeWhile (fun c => c != '/') = l₁ := by
    rw [e₁]; exact takeWhile_before_slash l₁ t₁ n₁
  have w₂ : p.takeWhile (fun c => c != '/') = l₂ := by
    rw [e₂]; exact takeWhile_before_slash l₂ t₂ n₂
  rw [← w₁, w₂]

theorem listEntries_top_not_snapshots (es : FsEntries) (ign : List String)
    (p : String) (hwf : wfEntries es = true) (h : p ∈ listEntries es [] ign) :
    p ≠ SNAPSHOTS_DIR_NAME ∧ ¬((SNAPSHOTS_DIR_NAME ++ "/").data <+: p.data) := by
  match es with
  | FsEntries.nil => simp [listEntries] at h
  | FsEntries.cons name node rest =>
    unfold wfEntries at hwf
    simp only [Bool.and_eq_true] at hwf
    obtain ⟨⟨⟨hvalid, _⟩, _⟩, hwfrest⟩ := hwf
    have hnoslash : '/' ∉ name.data := by
      simp only [validNameB, Bool.and_eq_true, decide_eq_true_eq] at hvalid
      exact hvalid.2
    simp only [listEntries] at h
    split at h
    · exact listEntries_top_not_snapshots rest ign p hwfrest h
    · rename_i hguard
      have hname : name ≠ SNAPSHOTS_DIR_NAME := by
        intro hEq
        exact hguard (by simp [hEq])
      split at h
      · exact listEntries_top_not_snapshots rest ign p hwfrest h
      · cases node with
        | broken => simp at h
        | file c r =>
          rcases List.mem_cons.mp h with h | h
          · have hp : p = name := by simpa [joinSegs] using h
            subst hp
            refine ⟨hname, ?_⟩
            intro hpre
            have : '/' ∈ p.data := hpre.subset (by decide)
            exact hnoslash this
          · exact listEntries_top_not_snapshots rest ign p hwfrest h
        | dir es' =>
          rcases List.mem_append.mp h with h | h
          · have h' : p ∈ listEntries es' (name :: []) ign := by simpa using h
            have hpref : (name ++ "/").data <+: p.data :=
              listEntries_prefix es' name [] ign p h'
            have hpref' : (name.data ++ ['/']) <+: p.data := by
              rw [String.data_append] at hpref
              simpa using hpref
            constructor
            · intro hEq
              rw [hEq] at hpref'
              have hmem : '/' ∈ SNAPSHOTS_DIR_NAME.data := hpref'.subset (by simp)
              exact absurd hmem (by decide)
            · intro hsnap
              have hsnap' : (SNAPSHOTS_DIR_NAME.data ++ ['/']) <+: p.data := by
                rw [String.data_append] at hsnap
                simpa using hsnap
              have : name.data = SNAPSHOTS_DIR_NAME.data :=
                prefix_slash_unique p.data name.data SNAPSHOTS_DIR_NAME.data
                  hpref' hsnap' hnoslash (by decide)
              exact hname (String.ext this)
          · exact listEntries_top_not_snapshots rest ign p hwfrest h

/-- C2: the resolved rule set always contains the snapshot-storage directory
name (force-added last, unconditionally), and for every well-formed tree and
every rule set the Tree Lister returns neither the snapshot-storage directory
directly under the root nor any path inside it. -/
theorem snapshots_dir_always_excluded :
    (∀ (g si : Option String) (dev : Bool),
        SNAPSHOTS_DIR_NAME ∈ loadIgnoreList g si dev)
    ∧ (∀ (root : FsNode) (ign : List String) (p : String),
        wfNode root = true → p ∈ listFilesRecursively root ign →
        p ≠ SNAPSHOTS_DIR_NAME ∧ ¬((SNAPSHOTS_DIR_NAME ++ "/").data <+: p.data)) := by
  constructor
  · intro g si dev
    cases si with
    | none => exact mem_setAdd_self _ _
    | some content =>
      unfold loadIgnoreList
      exact mem_setAdd_self _ _
  · intro root ign p hwf h
    cases root with
    | file c r => simp [listFilesRecursively] at h
    | broken => simp [listFilesRecursively] at h
    | dir es => exact listEntries_top_not_snapshots es ign p hwf h

/-! ### Lemmas on the differ (C3, C4, C5) -/

theorem classifyEntry_file (A B : FsNode) (sf cf : List String) (p : String)
    (e : FileEntry) (h : classifyEntry A B sf cf p = some e) : e.file = p := by
  simp only [classifyEntry] at h
  split at h
  · cases Option.some.inj h
    rfl
  · split at h
    · cases Option.some.inj h
      rfl
    · split at h
      · split at h
        · cases Option.some.inj h
          rfl
        · split at h
          · cases Option.some.inj h
            rfl
          · split at h
            · cases Option.some.inj h
              rfl
            · exact absurd h (by simp)
      · exact absurd h (by simp)

theorem mem_compareLoop (A B : FsNode) (sf cf : List String) (l : List String)
    (e : FileEntry) :
    e ∈ compareLoop A B sf cf l ↔ ∃ p ∈ l, classifyEntry A B sf cf p = some e := by
  induction l with
  | nil => simp [compareLoop]
  | cons q l ih =>
    simp only [compareLoop]
    cases hq : classifyEntry A B sf cf q with
    | none =>
      rw [ih]
      constructor
      · rintro ⟨p, hp, hc⟩
        exact ⟨p, List.mem_cons_of_mem _ hp, hc⟩
      · rintro ⟨p, hp, hc⟩
        rcases List.mem_cons.mp hp with h | h
        · subst h
          rw [hq] at hc
          cases hc
        · exact ⟨p, h, hc⟩
    | some e' =>
      constructor
      · intro h
        rcases List.mem_cons.mp h with h | h
        · subst h
          exact ⟨q, List.mem_cons_self _ _, hq⟩
        · obtain ⟨p, hp, hc⟩ := ih.mp h
          exact ⟨p, List.mem_cons_of_mem _ hp, hc⟩
      · rintro ⟨p, hp, hc⟩
        rcases List.mem_cons.mp hp with h | h
        · subst h
          rw [hq] at hc
          cases Option.some.inj hc
          exact List.mem_cons_self _ _
        · exact List.mem_cons_of_mem _ (ih.mpr ⟨p, h, hc⟩)

theorem mem_dedupFirstAux (l : List String) :
    ∀ (seen : List String) (x : String),
      x ∈ dedupFirstAux l seen ↔ x ∈ l ∧ x ∉ seen := by
  induction l with
  | nil => intro seen x; simp [dedupFirstAux]
  | cons a l ih =>
    intro seen x
    simp only [dedupFirstAux]
    split
    · rename_i hcont
      rw [ih]
      constructor
      · rintro ⟨hx, hns⟩
        exact ⟨List.mem_cons_of_mem _ hx, hns⟩
      · rintro ⟨hx, hns⟩
        rcases List.mem_cons.mp hx with h | h
        · subst h
          exact absurd ((contains_iff_mem _ _).mp hcont) hns
        · exact ⟨h, hns⟩
    · rename_i hcont
      constructor
      · intro hx
        rcases List.mem_cons.mp hx with h | h
        · subst h
          refine ⟨List.mem_cons_self _ _, ?_⟩
          intro hs
          exact hcont (by rw [(contains_iff_mem seen x).mpr hs])
        · obtain ⟨hx', hns⟩ := (ih _ _).mp h
          refine ⟨List.mem_cons_of_mem _ hx', ?_⟩
          intro hs
          exact hns (List.mem_cons_of_mem _ hs)
      · rintro ⟨hx, hns⟩
        rcases List.mem_cons.mp hx with h | h
        · subst h
          exact List.mem_cons_self _ _
        · by_cases hxa : x = a
          · subst hxa
            exact List.mem_cons_self _ _
          · refine List.mem_cons_of_mem _ ((ih _ _).mpr ⟨h, ?_⟩)
            intro hs
            rcases List.mem_cons.mp hs with h' | h'
            · exact hxa h'
            · exact hns h'

theorem mem_dedupFirst (l : List String) (x : String) :
    x ∈ dedupFirst l ↔ x ∈ l := by
  unfold dedupFirst
  rw [mem_dedupFirstAux]
  simp

theorem dedupFirstAux_nodup (l : List String) :
    ∀ (seen : List String), (dedupFirstAux l seen).Nodup := by
  induction l with
  | nil => intro seen; simp [dedupFirstAux]
  | cons a l ih =>
    intro seen
    simp only [dedupFirstAux]
    split
    · exact ih seen
    · refine List.nodup_cons.mpr ⟨?_, ih (a :: seen)⟩
      intro hmem
      exact ((mem_dedupFirstAux l _ _).mp hmem).2 (List.mem_cons_self _ _)

theorem dedupFirst_nodup (l : List String) : (dedupFirst l).Nodup :=
  dedupFirstAux_nodup l []

theorem contains_eq_false_of_not_mem {l : List String} {x : String}
    (h : x ∉ l) : l.contains x = false := by
  cases hc : l.contains x with
  | false => rfl
  | true => exact absurd ((contains_iff_mem _ _).mp hc) h

/-- C3 counterexample: with readdir order `b.txt` before `a.txt`, the diff
result's entries are not lexicographically sorted by path. -/
theorem compare_not_sorted_counterexample :
    (compareSnapshots
        (FsNode.dir (FsEntries.cons "b.txt" (FsNode.file "x" true)
          (FsEntries.cons "a.txt" (FsNode.file "y" true) FsEntries.nil)))
        (FsNode.dir FsEntries.nil) []).map FileEntry.file = ["b.txt", "a.txt"]
    ∧ pathsSorted
        ((compareSnapshots
            (FsNode.dir (FsEntries.cons "b.txt" (FsNode.file "x" true)
              (FsEntries.cons "a.txt" (FsNode.file "y" true) FsEntries.nil)))
            (FsNode.dir FsEntries.nil) []).map FileEntry.file) = false := by
  decide

theorem map_file_compareLoop (A B : FsNode) (sf cf : List String)
    (l : List String) :
    (compareLoop A B sf cf l).map FileEntry.file
      = l.filter (fun p => (classifyEntry A B sf cf p).isSome) := by
  induction l with
  | nil => simp [compareLoop]
  | cons q l ih =>
    simp only [compareLoop, List.filter_cons]
    cases hq : classifyEntry A B sf cf q with
    | none => simpa using ih
    | some e =>
      simp only [Option.isSome_some, List.map_cons, ih]
      rw [classifyEntry_file A B sf cf q e hq]
      simp

/-- C3 amended: `compare` iterates the union of the two file sets in
first-seen insertion order (all snapshot-listing paths in listing order, then
the current-only paths); the resulting entries appear in exactly that order,
which is lexicographically sorted only when the underlying directory
enumeration happens to be. -/
theorem compare_iterates_union_in_insertion_order :
    ∀ (A B : FsNode) (ign : List String),
      (compareSnapshots A B ign).map FileEntry.file
        = (dedupFirst (listFilesRecursively A ign ++ listFilesRecursively B ign)).filter
            (fun p => (classifyEntry A B (listFilesRecursively A ign)
                (listFilesRecursively B ign) p).isSome) := by
  intro A B ign
  unfold compareSnapshots
  exact map_file_compareLoop A B _ _ _

theorem classifyEntry_eq (A B : FsNode) (sf cf : List String) (p : String) :
    classifyEntry A B sf cf p =
      if p ∈ sf ∧ p ∉ cf then some { file := p, status := "removed" }
      else if p ∉ sf ∧ p ∈ cf then some { file := p, status := "added" }
      else if p ∈ sf ∧ p ∈ cf then
        (match hashFileAt A p with
         | Except.error e =>
           some { file := p, status := "error_comparing", message := some e }
         | Except.ok snapHash =>
           match hashFileAt B p with
           | Except.error e =>
             some { file := p, status := "error_comparing", message := some e }
           | Except.ok currHash =>
             if snapHash ≠ currHash then
               some { file := p, status := "modified",
                      linesChanged := some (natAbsDiff (jsLineCount (contentAt B p))
                        (jsLineCount (contentAt A p))) }
             else none)
      else none := by
  by_cases h1 : p ∈ sf <;> by_cases h2 : p ∈ cf
  · have c1 : sf.contains p = true := (contains_iff_mem _ _).mpr h1
    have c2 : cf.contains p = true := (contains_iff_mem _ _).mpr h2
    simp [classifyEntry, c1, c2, h1, h2]
  · have c1 : sf.contains p = true := (contains_iff_mem _ _).mpr h1
    have c2 : cf.contains p = false := contains_eq_false_of_not_mem h2
    simp [classifyEntry, c1, c2, h1, h2]
  · have c1 : sf.contains p = false := contains_eq_false_of_not_mem h1
    have c2 : cf.contains p = true := (contains_iff_mem _ _).mpr h2
    simp [classifyEntry, c1, c2, h1, h2]
  · have c1 : sf.contains p = false := contains_eq_false_of_not_mem h1
    have c2 : cf.contains p = false := contains_eq_false_of_not_mem h2
    simp [classifyEntry, c1, c2, h1, h2]

theorem compare_added_iff (A B : FsNode) (ign : List String) (p : String) :
    (∃ e ∈ compareSnapshots A B ign, e.file = p ∧ e.status = "added")
      ↔ (p ∉ listFilesRecursively A ign ∧ p ∈ listFilesRecursively B ign) := by
  constructor
  · rintro ⟨e, he, hfile, hstat⟩
    unfold compareSnapshots at he
    rw [mem_compareLoop] at he
    obtain ⟨q, _, hc⟩ := he
    have hq : q = p := by rw [← hfile, classifyEntry_file _ _ _ _ q e hc]
    subst hq
    rw [classifyEntry_eq] at hc
    split at hc
    · cases Option.some.inj hc
      simp at hstat
    · split at hc
      · rename_i hcond
        cases Option.some.inj hc
        exact ⟨hcond.1, hcond.2⟩
      · split at hc
        · split at hc
          · cases Option.some.inj hc
            simp at hstat
          · split at hc
            · cases Option.some.inj hc
              simp at hstat
            · split at hc
              · cases Option.some.inj hc
                simp at hstat
              · cases hc
        · cases hc
  · rintro ⟨hna, hb⟩
    refine ⟨{ file := p, status := "added" }, ?_, rfl, rfl⟩
    unfold compareSnapshots
    rw [mem_compareLoop]
    refine ⟨p, ?_, ?_⟩
    · rw [mem_dedupFirst]
      exact List.mem_append_right _ hb
    · rw [classifyEntry_eq]
      simp [hna, hb]

theorem compare_removed_iff (A B : FsNode) (ign : List String) (p : String) :
    (∃ e ∈ compareSnapshots A B ign, e.file = p ∧ e.status = "removed")
      ↔ (p ∈ listFilesRecursively A ign ∧ p ∉ listFilesRecursively B ign) := by
  constructor
  · rintro ⟨e, he, hfile, hstat⟩
    unfold compareSnapshots at he
    rw [mem_compareLoop] at he
    obtain ⟨q, _, hc⟩ := he
    have hq : q = p := by rw [← hfile, classifyEntry_file _ _ _ _ q e hc]
    subst hq
    rw [classifyEntry_eq] at hc
    split at hc
    · rename_i hcond
      cases Option.some.inj hc
      exact ⟨hcond.1, hcond.2⟩
    · split at hc
      · cases Option.some.inj hc
        simp at hstat
      · split at hc
        · split at hc
          · cases Option.some.inj hc
            simp at hstat
          · split at hc
            · cases Option.some.inj hc
              simp at hstat
            · split at hc
              · cases Option.some.inj hc
                simp at hstat
              · cases hc
        · cases hc
  · rintro ⟨ha, hnb⟩
    refine ⟨{ file := p, status := "removed" }, ?_, rfl, rfl⟩
    unfold compareSnapshots
    rw [mem_compareLoop]
    refine ⟨p, ?_, ?_⟩
    · rw [mem_dedupFirst]
      exact List.mem_append_left _ ha
    · rw [classifyEntry_eq]
      simp [ha, hnb]

theorem compare_modified_iff (A B : FsNode) (ign : List String) (p : String) :
    (∃ e ∈ compareSnapshots A B ign, e.file = p ∧ e.status = "modified")
      ↔ (p ∈ listFilesRecursively A ign ∧ p ∈ listFilesRecursively B ign
          ∧ ∃ hA hB, hashFileAt A p = Except.ok hA ∧ hashFileAt B p = Except.ok hB
              ∧ hA ≠ hB) := by
  constructor
  · rintro ⟨e, he, hfile, hstat⟩
    unfold compareSnapshots at he
    rw [mem_compareLoop] at he
    obtain ⟨q, _, hc⟩ := he
    have hq : q = p := by rw [← hfile, classifyEntry_file _ _ _ _ q e hc]
    subst hq
    rw [classifyEntry_eq] at hc
    split at hc
    · cases Option.some.inj hc
      simp at hstat
    · split at hc
      · cases Option.some.inj hc
        simp at hstat
      · split at hc
        · rename_i hcond
          split at hc
          · cases Option.some.inj hc
            simp at hstat
          · rename_i hA hhA
            split at hc
            · cases Option.some.inj hc
              simp at hstat
            · rename_i hB hhB
              split at hc
              · rename_i hne
                exact ⟨hcond.1, hcond.2, hA, hB, hhA, hhB, hne⟩
              · cases hc
        · cases hc
  · rintro ⟨ha, hb, hA, hB, hhA, hhB, hne⟩
    refine ⟨{ file := p, status := "modified",
              linesChanged := some (natAbsDiff (jsLineCount (contentAt B p))
                (jsLineCount (contentAt A p))) }, ?_, rfl, rfl⟩
    unfold compareSnapshots
    rw [mem_compareLoop]
    refine ⟨p, ?_, ?_⟩
    · rw [mem_dedupFirst]
      exact List.mem_append_left _ ha
    · rw [classifyEntry_eq]
      rw [if_neg (by simp [hb]), if_neg (by simp [ha]), if_pos ⟨ha, hb⟩, hhA, hhB]
      simp [hne]

/-- C4: the comparison is anti-symmetric in status — a path `added` in
`compare(A,B)` is `removed` in `compare(B,A)` and vice versa, and `modified`
paths are `modified` in both directions. -/
theorem compare_antisymmetry :
    ∀ (A B : FsNode) (ign : List String) (p : String),
      ((∃ e ∈ compareSnapshots A B ign, e.file = p ∧ e.status = "added")
        ↔ (∃ e ∈ compareSnapshots B A ign, e.file = p ∧ e.status = "removed"))
      ∧ ((∃ e ∈ compareSnapshots A B ign, e.file = p ∧ e.status = "removed")
        ↔ (∃ e ∈ compareSnapshots B A ign, e.file = p ∧ e.status = "added"))
      ∧ ((∃ e ∈ compareSnapshots A B ign, e.file = p ∧ e.status = "modified")
        ↔ (∃ e ∈ compareSnapshots B A ign, e.file = p ∧ e.status = "modified")) := by
  intro A B ign p
  refine ⟨?_, ?_, ?_⟩
  · rw [compare_added_iff, compare_removed_iff]
    exact ⟨fun h => ⟨h.2, h.1⟩, fun h => ⟨h.2, h.1⟩⟩
  · rw [compare_removed_iff, compare_added_iff]
    exact ⟨fun h => ⟨h.2, h.1⟩, fun h => ⟨h.2, h.1⟩⟩
  · rw [compare_modified_iff, compare_modified_iff]
    constructor
    · rintro ⟨ha, hb, hA, hB, hhA, hhB, hne⟩
      exact ⟨hb, ha, hB, hA, hhB, hhA, fun h => hne h.symm⟩
    · rintro ⟨hb, ha, hB, hA, hhB, hhA, hne⟩
      exact ⟨ha, hb, hA, hB, hhA, hhB, fun h => hne h.symm⟩

theorem classifyEntry_status (A B : FsNode) (sf cf : List String) (p : String)
    (e : FileEntry) (h : classifyEntry A B sf cf p = some e) :
    e.status = "added" ∨ e.status = "removed" ∨ e.status = "modified"
      ∨ e.status = "error_comparing" := by
  rw [classifyEntry_eq] at h
  split at h
  · cases Option.some.inj h
    exact Or.inr (Or.inl rfl)
  · split at h
    · cases Option.some.inj h
      exact Or.inl rfl
    · split at h
      · split at h
        · cases Option.some.inj h
          exact Or.inr (Or.inr (Or.inr rfl))
        · split at h
          · cases Option.some.inj h
            exact Or.inr (Or.inr (Or.inr rfl))
          · split at h
            · cases Option.some.inj h
              exact Or.inr (Or.inr (Or.inl rfl))
            · cases h
      · cases h

theorem compareLoop_filter_not_mem (A B : FsNode) (sf cf : List String)
    (l : List String) (p : String) (hp : p ∉ l) :
    (compareLoop A B sf cf l).filter (fun e => e.file == p) = [] := by
  induction l with
  | nil => simp [compareLoop]
  | cons q l ih =>
    have hq : q ≠ p := fun h => hp (h ▸ List.mem_cons_self q l)
    have hp' : p ∉ l := fun h => hp (List.mem_cons_of_mem _ h)
    simp only [compareLoop]
    cases hc : classifyEntry A B sf cf q with
    | none => exact ih hp'
    | some e =>
      have hef : e.file = q := classifyEntry_file _ _ _ _ _ _ hc
      simp [hef, hq, ih hp']

theorem compareLoop_filter_mem (A B : FsNode) (sf cf : List String)
    (l : List String) (p : String) (hl : l.Nodup) (hp : p ∈ l) :
    (compareLoop A B sf cf l).filter (fun e => e.file == p)
      = (classifyEntry A B sf cf p).toList := by
  induction l with
  | nil => cases hp
  | cons q l ih =>
    obtain ⟨hqnot, hl'⟩ := List.nodup_cons.mp hl
    simp only [compareLoop]
    rcases List.mem_cons.mp hp with h | h
    · subst h
      cases hc : classifyEntry A B sf cf p with
      | none =>
        simp only [hc]
        rw [compareLoop_filter_not_mem A B sf cf l p hqnot]
        rfl
      | some e =>
        have hef : e.file = p := classifyEntry_file _ _ _ _ _ _ hc
        simp only [hc]
        rw [List.filter_cons]
        rw [if_pos (by simp [hef])]
        rw [compareLoop_filter_not_mem A B sf cf l p hqnot]
        rfl
    · have hq : q ≠ p := fun hEq => hqnot (hEq ▸ h)
      cases hc : classifyEntry A B sf cf q with
      | none =>
        simp only [hc]
        exact ih hl' h
      | some e =>
        have hef : e.file = q := classifyEntry_file _ _ _ _ _ _ hc
        simp only [hc]
        rw [List.filter_cons]
        rw [if_neg (by simp [hef, hq])]
        exact ih hl' h

/-- C5 amended: every entry `compare` produces carries one of the statuses
`added | removed | modified | error_comparing` (the error tag in the source
is the string `error_comparing`, not `error`), and a read/hash failure on a
path present under both roots yields exactly one entry for it, tagged
`error_comparing`, with a message — the loop is total and goes on to the
remaining paths. -/
theorem compare_error_comparing_entries :
    ∀ (A B : FsNode) (ign : List String),
      (∀ e ∈ compareSnapshots A B ign,
          e.status = "added" ∨ e.status = "removed" ∨ e.status = "modified"
            ∨ e.status = "error_comparing")
      ∧ (∀ p, p ∈ listFilesRecursively A ign → p ∈ listFilesRecursively B ign →
          (exceptIsOk (hashFileAt A p) = false ∨ exceptIsOk (hashFileAt B p) = false) →
          ∃ msg, (compareSnapshots A B ign).filter (fun e => e.file == p)
            = [{ file := p, status := "error_comparing", message := some msg }]) := by
  intro A B ign
  constructor
  · intro e he
    unfold compareSnapshots at he
    rw [mem_compareLoop] at he
    obtain ⟨q, _, hc⟩ := he
    exact classifyEntry_status _ _ _ _ _ _ hc
  · intro p ha hb herr
    have hpu : p ∈ dedupFirst
        (listFilesRecursively A ign ++ listFilesRecursively B ign) :=
      (mem_dedupFirst _ _).mpr (List.mem_append_left _ ha)
    have hclass : ∃ msg,
        classifyEntry A B (listFilesRecursively A ign) (listFilesRecursively B ign) p
          = some { file := p, status := "error_comparing", message := some msg } := by
      rw [classifyEntry_eq]
      rw [if_neg (by simp [hb]), if_neg (by simp [ha]), if_pos ⟨ha, hb⟩]
      cases hA : hashFileAt A p with
      | error m => exact ⟨m, rfl⟩
      | ok h1 =>
        cases hB : hashFileAt B p with
        | error m => exact ⟨m, rfl⟩
        | ok h2 =>
          rw [hA, hB] at herr
          simp [exceptIsOk] at herr
    obtain ⟨msg, hmsg⟩ := hclass
    refine ⟨msg, ?_⟩
    unfold compareSnapshots
    rw [compareLoop_filter_mem A B _ _ _ p (dedupFirst_nodup _) hpu, hmsg]
    rfl

/-- C5 counterexample: an unreadable shared file produces the status string
`error_comparing`, not the `error` tag the claim names. -/
theorem compare_error_status_tag_counterexample :
    (compareSnapshots
        (FsNode.dir (FsEntries.cons "f.txt" (FsNode.file "x" false) FsEntries.nil))
        (FsNode.dir (FsEntries.cons "f.txt" (FsNode.file "x" true) FsEntries.nil))
        []).map FileEntry.status = ["error_comparing"]
    ∧ ¬ ∃ e ∈ compareSnapshots
        (FsNode.dir (FsEntries.cons "f.txt" (FsNode.file "x" false) FsEntries.nil))
        (FsNode.dir (FsEntries.cons "f.txt" (FsNode.file "x" true) FsEntries.nil))
        [], e.status = "error" := by
  decide

/-- Witness for the amended C5 on a concrete unreadable shared file. -/
theorem compare_error_comparing_entries_witness :
    ∃ msg, (compareSnapshots
        (FsNode.dir (FsEntries.cons "g.txt" (FsNode.file "y" false) FsEntries.nil))
        (FsNode.dir (FsEntries.cons "g.txt" (FsNode.file "y" true) FsEntries.nil))
        []).filter (fun e => e.file == "g.txt")
      = [{ file := "g.txt", status := "error_comparing", message := some msg }] :=
  (compare_error_comparing_entries
      (FsNode.dir (FsEntries.cons "g.txt" (FsNode.file "y" false) FsEntries.nil))
      (FsNode.dir (FsEntries.cons "g.txt" (FsNode.file "y" true) FsEntries.nil))
      []).2 "g.txt" (by decide) (by decide) (by decide)

/-- C9 counterexample: a `stat`-failing entry enumerated before a readable
file in the same directory removes the readable file from the listing. -/
theorem walker_error_drops_siblings_counterexample :
    listFilesRecursively
        (FsNode.dir (FsEntries.cons "bad" FsNode.broken
          (FsEntries.cons "good.txt" (FsNode.file "x" true) FsEntries.nil))) [] = []
    ∧ listFilesRecursively
        (FsNode.dir (FsEntries.cons "good.txt" (FsNode.file "x" true) FsEntries.nil)) []
        = ["good.txt"] := by
  decide

/-- C9 amended: an unreadable (`stat`-failing) entry is caught silently — no
exception propagates, and everything listed before it in its directory (and
inside other directories) is kept — but the remaining entries of its own
directory are dropped, because the single `try` wraps the whole directory
loop. -/
theorem walker_error_drops_directory_rest (pre : FsEntries) :
    ∀ (post : FsEntries) (pfx ign : List String) (name : String),
      entrySkipped pfx ign name = false →
      listEntries (entsAppend pre (FsEntries.cons name FsNode.broken post)) pfx ign
        = listEntries pre pfx ign := by
  match pre with
  | FsEntries.nil =>
    intro post pfx ign name hskip
    simp only [entrySkipped, Bool.or_eq_false_iff] at hskip
    obtain ⟨h1, h2⟩ := hskip
    simp [entsAppend, listEntries, h1, h2]
  | FsEntries.cons n v r =>
    intro post pfx ign name hskip
    simp only [entsAppend, listEntries]
    split
    · exact walker_error_drops_directory_rest r post pfx ign name hskip
    · split
      · exact walker_error_drops_directory_rest r post pfx ign name hskip
      · cases v with
        | broken => rfl
        | file c rd =>
          rw [walker_error_drops_directory_rest r post pfx ign name hskip]
        | dir es =>
          rw [walker_error_drops_directory_rest r post pfx ign name hskip]

/-- Witness for the amended C9: one listed file before the failing entry, one
after; the one before survives, the one after is dropped. -/
theorem walker_error_drops_directory_rest_witness :
    listEntries (entsAppend (FsEntries.cons "a.txt" (FsNode.file "x" true) FsEntries.nil)
        (FsEntries.cons "bad" FsNode.broken
          (FsEntries.cons "z.txt" (FsNode.file "y" true) FsEntries.nil))) [] []
      = listEntries (FsEntries.cons "a.txt" (FsNode.file "x" true) FsEntries.nil) [] [] :=
  walker_error_drops_directory_rest
    (FsEntries.cons "a.txt" (FsNode.file "x" true) FsEntries.nil)
    (FsEntries.cons "z.txt" (FsNode.file "y" true) FsEntries.nil) [] [] "bad" (by decide)

theorem restoreStep_counts (snapT : FsNode) (dryRun : Bool)
    (st : FsNode × Nat × Nat) (relPath : String) :
    (restoreStep snapT dryRun st relPath).2.1 + (restoreStep snapT dryRun st relPath).2.2
      = st.2.1 + st.2.2 + 1 := by
  unfold restoreStep
  dsimp only
  repeat' split
  all_goals simp_arith

theorem restore_fold_counts (snapT : FsNode) (dryRun : Bool) (l : List String) :
    ∀ (st : FsNode × Nat × Nat),
      (l.foldl (restoreStep snapT dryRun) st).2.1
          + (l.foldl (restoreStep snapT dryRun) st).2.2
        = st.2.1 + st.2.2 + l.length := by
  induction l with
  | nil => intro st; simp
  | cons q l ih =>
    intro st
    simp only [List.foldl_cons, List.length_cons]
    rw [ih (restoreStep snapT dryRun st q), restoreStep_counts]
    omega

/-- C10: a per-file failure during restore (hashing the snapshot file,
hashing an existing destination file, or creating directories / copying in
live mode) is caught and counted through the same `skipped` counter that
counts hash-matched files — with an identical state transition, so the
reported counts cannot distinguish the two — and the loop goes on: over any
snapshot file list, `restored + skipped` equals the number of listed files. -/
theorem restore_error_counts_as_skipped :
    (∀ (snapT destT : FsNode) (dryRun : Bool) (restored skipped : Nat)
        (relPath : String),
        exceptIsOk (hashFileAt snapT relPath) = false →
        restoreStep snapT dryRun (destT, restored, skipped) relPath
          = (destT, restored, skipped + 1))
    ∧ (∀ (snapT destT : FsNode) (dryRun : Bool) (restored skipped : Nat)
        (relPath : String),
        existsPath destT relPath = true →
        exceptIsOk (hashFileAt destT relPath) = false →
        restoreStep snapT dryRun (destT, restored, skipped) relPath
          = (destT, restored, skipped + 1))
    ∧ (∀ (snapT destT : FsNode) (restored skipped : Nat) (relPath : String),
        exceptIsOk (hashFileAt snapT relPath) = true →
        existsPath destT relPath = false →
        writeFileAt destT relPath (contentAt snapT relPath) = Except.error () →
        restoreStep snapT false (destT, restored, skipped) relPath
          = (destT, restored, skipped + 1))
    ∧ (∀ (snapT destT : FsNode) (dryRun : Bool) (restored skipped : Nat)
        (relPath h : String),
        hashFileAt snapT relPath = Except.ok h →
        existsPath destT relPath = true →
        hashFileAt destT relPath = Except.ok h →
        restoreStep snapT dryRun (destT, restored, skipped) relPath
          = (destT, restored, skipped + 1))
    ∧ (∀ (snapT destT : FsNode) (ign : List String) (dryRun : Bool),
        (restoreSnapshot snapT destT ign dryRun).2.restored
            + (restoreSnapshot snapT destT ign dryRun).2.skipped
          = (listFilesRecursively snapT ign).length) := by
  refine ⟨?_, ?_, ?_, ?_, ?_⟩
  · intro snapT destT dryRun restored skipped relPath herr
    cases hh : hashFileAt snapT relPath with
    | ok v => rw [hh] at herr; simp [exceptIsOk] at herr
    | error m => simp [restoreStep, hh]
  · intro snapT destT dryRun restored skipped relPath hex herr
    cases hh : hashFileAt snapT relPath with
    | error m => simp [restoreStep, hh]
    | ok v =>
      cases hd : hashFileAt destT relPath with
      | ok w => rw [hd] at herr; simp [exceptIsOk] at herr
      | error m => simp [restoreStep, hh, hex, hd, Except.map]
  · intro snapT destT restored skipped relPath hok hex hw
    cases hh : hashFileAt snapT relPath with
    | error m => rw [hh] at hok; simp [exceptIsOk] at hok
    | ok v => simp [restoreStep, hh, hex, hw]
  · intro snapT destT dryRun restored skipped relPath h hhs hex hhd
    simp [restoreStep, hhs, hex, hhd, Except.map]
  · intro snapT destT ign dryRun
    unfold restoreSnapshot
    simp only []
    rw [restore_fold_counts]
    simp

/-- Witness for C10: an unreadable snapshot file is counted as skipped with
the destination untouched. -/
theorem restore_error_counts_as_skipped_witness :
    restoreStep (FsNode.dir (FsEntries.cons "bad" FsNode.broken FsEntries.nil)) false
        (FsNode.dir FsEntries.nil, 0, 0) "bad"
      = (FsNode.dir FsEntries.nil, 0, 0 + 1) :=
  restore_error_counts_as_skipped.1
    (FsNode.dir (FsEntries.cons "bad" FsNode.broken FsEntries.nil))
    (FsNode.dir FsEntries.nil) false 0 0 "bad" (by decide)

/-- Witness for C2 on a concrete tree containing a `__snapshots__`
subdirectory, with an empty rule set. -/
theorem snapshots_dir_always_excluded_witness :
    SNAPSHOTS_DIR_NAME ∈ loadIgnoreList none none false
    ∧ ("top.txt" ≠ SNAPSHOTS_DIR_NAME
        ∧ ¬((SNAPSHOTS_DIR_NAME ++ "/").data <+: ("top.txt" : String).data)) :=
  ⟨snapshots_dir_always_excluded.1 none none false,
   snapshots_dir_always_excluded.2
     (FsNode.dir (FsEntries.cons "__snapshots__"
        (FsNode.dir (FsEntries.cons "s.txt" (FsNode.file "s" true) FsEntries.nil))
        (FsEntries.cons "top.txt" (FsNode.file "t" true) FsEntries.nil)))
     [] "top.txt" (by decide) (by decide)⟩


/-! ### Segment and lookup lemmas (towards C7) -/

theorem splitOnChar_no_sep (sep : Char) (l : List Char) (h : sep ∉ l) :
    splitOnChar sep l = [l] := by
  induction l with
  | nil => rfl
  | cons c l ih =>
    have hc : c ≠ sep := fun hEq => h (hEq ▸ List.mem_cons_self c l)
    have h' : sep ∉ l := fun hm => h (List.mem_cons_of_mem _ hm)
    simp only [splitOnChar, if_neg hc, ih h']

theorem splitOnChar_append (sep : Char) (l1 l2 : List Char) (h : sep ∉ l1) :
    splitOnChar sep (l1 ++ sep :: l2) = l1 :: splitOnChar sep l2 := by
  induction l1 with
  | nil => simp [splitOnChar]
  | cons c l ih =>
    have hc : c ≠ sep := fun hEq => h (hEq ▸ List.mem_cons_self c l)
    have h' : sep ∉ l := fun hm => h (List.mem_cons_of_mem _ hm)
    simp only [List.cons_append, splitOnChar, if_neg hc, List.append_eq]
    rw [ih h']

theorem validNameB_no_slash {s : String} (h : validNameB s = true) : '/' ∉ s.data := by
  simp only [validNameB, Bool.and_eq_true, decide_eq_true_eq] at h
  exact h.2

theorem splitSlash_joinSegs (segs : List String) (hne : segs ≠ [])
    (hv : ∀ s ∈ segs, validNameB s = true) :
    splitSlash (joinSegs segs) = segs := by
  induction segs with
  | nil => exact absurd rfl hne
  | cons a t ih =>
    cases t with
    | nil =>
      unfold splitSlash
      rw [joinSegs, splitOnChar_no_sep '/' a.data
        (validNameB_no_slash (hv a (List.mem_cons_self a [])))]
      rfl
    | cons b t' =>
      have hv' : ∀ s ∈ b :: t', validNameB s = true :=
        fun s hs => hv s (List.mem_cons_of_mem _ hs)
      have ha : validNameB a = true := hv a (List.mem_cons_self _ _)
      unfold splitSlash
      rw [joinSegs_cons a (b :: t') (by simp)]
      have hdata : (a ++ "/" ++ joinSegs (b :: t')).data
          = a.data ++ '/' :: (joinSegs (b :: t')).data := by
        rw [String.data_append, String.data_append]
        simp
      rw [hdata, splitOnChar_append '/' _ _ (validNameB_no_slash ha)]
      have := ih (by simp) hv'
      unfold splitSlash at this
      simp only [List.map_cons, this]

theorem findNode_none_iff (es : FsEntries) (s : String) :
    findNode es s = none ↔ s ∉ entryNames es := by
  match es with
  | FsEntries.nil => simp [findNode, entryNames]
  | FsEntries.cons name node rest =>
    simp only [findNode, entryNames]
    split
    · rename_i hEq
      subst hEq
      simp
    · rename_i hne
      rw [findNode_none_iff rest s]
      constructor
      · intro h hm
        rcases List.mem_cons.mp hm with h' | h'
        · exact hne h'.symm
        · exact h h'
      · intro h hm
        exact h (List.mem_cons_of_mem _ hm)

theorem lookupSegs_cons (s : String) (t : List String) (es : FsEntries)
    (ht : t ≠ []) :
    lookupSegs (s :: t) es
      = (match findNode es s with
         | some (FsNode.dir sub) => lookupSegs t sub
         | _ => none) := by
  cases t with
  | nil => exact absurd rfl ht
  | cons b t' => rfl

theorem lookupSegs_append (a : List String) :
    ∀ (es : FsEntries) (b : List String), a ≠ [] → b ≠ [] →
      lookupSegs (a ++ b) es
        = (match lookupSegs a es with
           | some (FsNode.dir sub) => lookupSegs b sub
           | _ => none) := by
  induction a with
  | nil => intro es b ha; exact absurd rfl ha
  | cons s a' ih =>
    intro es b _ hb
    cases a' with
    | nil =>
      rw [List.cons_append, List.nil_append, lookupSegs_cons s b es hb]
      show _ = (match findNode es s with
                | some (FsNode.dir sub) => lookupSegs b sub
                | _ => none)
      rfl
    | cons s2 a'' =>
      rw [List.cons_append, lookupSegs_cons s ((s2 :: a'') ++ b) es (by simp),
          lookupSegs_cons s (s2 :: a'') es (by simp)]
      cases findNode es s with
      | none => rfl
      | some v =>
        cases v with
        | file c r => rfl
        | broken => rfl
        | dir sub => exact ih sub b (by simp) hb


/-! ### Well-formedness and frame lemmas for directory updates -/

theorem wfEntries_cons_iff (name : String) (node : FsNode) (rest : FsEntries) :
    wfEntries (FsEntries.cons name node rest) = true
      ↔ validNameB name = true ∧ name ∉ entryNames rest
          ∧ wfNode node = true ∧ wfEntries rest = true := by
  constructor
  · intro h
    unfold wfEntries at h
    simp only [Bool.and_eq_true] at h
    obtain ⟨⟨⟨h1, h2⟩, h3⟩, h4⟩ := h
    refine ⟨h1, ?_, ?_, h4⟩
    · intro hm
      rw [(contains_iff_mem _ _).mpr hm] at h2
      simp at h2
    · cases node with
      | dir es => exact h3
      | file c r => rfl
      | broken => rfl
  · rintro ⟨h1, h2, h3, h4⟩
    unfold wfEntries
    simp only [Bool.and_eq_true]
    refine ⟨⟨⟨h1, ?_⟩, ?_⟩, h4⟩
    · rw [contains_eq_false_of_not_mem h2]
      rfl
    · cases node with
      | dir es => exact h3
      | file c r => rfl
      | broken => rfl

theorem cleanEntries_cons_iff (name : String) (node : FsNode) (rest : FsEntries) :
    cleanEntries (FsEntries.cons name node rest) = true
      ↔ cleanNode node = true ∧ cleanEntries rest = true := by
  constructor
  · intro h
    unfold cleanEntries at h
    simp only [Bool.and_eq_true] at h
    obtain ⟨h1, h2⟩ := h
    refine ⟨?_, h2⟩
    cases node with
    | dir es => exact h1
    | file c r => exact h1
    | broken => exact h1
  · rintro ⟨h1, h2⟩
    unfold cleanEntries
    simp only [Bool.and_eq_true]
    refine ⟨?_, h2⟩
    cases node with
    | dir es => exact h1
    | file c r => exact h1
    | broken => exact h1

theorem clean_findNode (es : FsEntries) (s : String) (v : FsNode)
    (hc : cleanEntries es = true) (h : findNode es s = some v) :
    cleanNode v = true := by
  match es with
  | FsEntries.nil => cases h
  | FsEntries.cons name node rest =>
    obtain ⟨h1, h2⟩ := (cleanEntries_cons_iff _ _ _).mp hc
    unfold findNode at h
    split at h
    · cases Option.some.inj h
      exact h1
    · exact clean_findNode rest s v h2 h

theorem wf_findNode (es : FsEntries) (s : String) (v : FsNode)
    (hw : wfEntries es = true) (h : findNode es s = some v) :
    wfNode v = true := by
  match es with
  | FsEntries.nil => cases h
  | FsEntries.cons name node rest =>
    obtain ⟨_, _, h3, h4⟩ := (wfEntries_cons_iff _ _ _).mp hw
    unfold findNode at h
    split at h
    · cases Option.some.inj h
      exact h3
    · exact wf_findNode rest s v h4 h

theorem clean_lookupSegs (segs : List String) :
    ∀ (es : FsEntries) (c : String) (r : Bool), cleanEntries es = true →
      lookupSegs segs es = some (FsNode.file c r) → r = true := by
  match segs with
  | [] => intro es c r _ h; cases h
  | [s] =>
    intro es c r hc h
    have := clean_findNode es s _ hc h
    simpa [cleanNode] using this
  | s :: s2 :: rest =>
    intro es c r hc h
    rw [lookupSegs_cons s (s2 :: rest) es (by simp)] at h
    cases hf : findNode es s with
    | none => rw [hf] at h; cases h
    | some v =>
      rw [hf] at h
      cases v with
      | file c' r' => cases h
      | broken => cases h
      | dir sub =>
        have hsub : cleanEntries sub = true := by
          have := clean_findNode es s _ hc hf
          simpa [cleanNode] using this
        exact clean_lookupSegs (s2 :: rest) sub c r hsub h

theorem wf_lookupSegs_dir (segs : List String) :
    ∀ (es sub : FsEntries), wfEntries es = true →
      lookupSegs segs es = some (FsNode.dir sub) → wfEntries sub = true := by
  match segs with
  | [] => intro es sub _ h; cases h
  | [s] =>
    intro es sub hw h
    have := wf_findNode es s _ hw h
    simpa [wfNode] using this
  | s :: s2 :: rest =>
    intro es sub hw h
    rw [lookupSegs_cons s (s2 :: rest) es (by simp)] at h
    cases hf : findNode es s with
    | none => rw [hf] at h; cases h
    | some v =>
      rw [hf] at h
      cases v with
      | file c' r' => cases h
      | broken => cases h
      | dir sub' =>
        have hsub : wfEntries sub' = true := by
          have := wf_findNode es s _ hw hf
          simpa [wfNode] using this
        exact wf_lookupSegs_dir (s2 :: rest) sub' sub hsub h

theorem findNode_appendEntry_self (es : FsEntries) (s : String) (n : FsNode)
    (h : findNode es s = none) : findNode (appendEntry es s n) s = some n := by
  match es with
  | FsEntries.nil =>
    unfold appendEntry findNode
    rw [if_pos rfl]
  | FsEntries.cons name node rest =>
    unfold findNode at h
    split at h
    · cases h
    · rename_i hne
      unfold appendEntry findNode
      rw [if_neg hne]
      exact findNode_appendEntry_self rest s n h

theorem findNode_appendEntry_other (es : FsEntries) (s s' : String) (n : FsNode)
    (h : s' ≠ s) : findNode (appendEntry es s n) s' = findNode es s' := by
  match es with
  | FsEntries.nil =>
    unfold appendEntry findNode
    rw [if_neg (fun hEq => h hEq.symm)]
    rfl
  | FsEntries.cons name node rest =>
    unfold appendEntry findNode
    split
    · rfl
    · exact findNode_appendEntry_other rest s s' n h

theorem findNode_replaceNode_self (es : FsEntries) (s : String) (n : FsNode)
    (h : findNode es s ≠ none) : findNode (replaceNode es s n) s = some n := by
  match es with
  | FsEntries.nil => exact absurd rfl h
  | FsEntries.cons name node rest =>
    unfold findNode at h
    unfold replaceNode
    split
    · rename_i hEq
      unfold findNode
      rw [if_pos hEq]
    · rename_i hne
      rw [if_neg hne] at h
      unfold findNode
      rw [if_neg hne]
      exact findNode_replaceNode_self rest s n h

theorem findNode_replaceNode_other (es : FsEntries) (s s' : String) (n : FsNode)
    (h : s' ≠ s) : findNode (replaceNode es s n) s' = findNode es s' := by
  match es with
  | FsEntries.nil => rfl
  | FsEntries.cons name node rest =>
    unfold replaceNode
    split
    · rename_i hEq
      subst hEq
      unfold findNode
      rw [if_neg (fun hEq' => h hEq'.symm), if_neg (fun hEq' => h hEq'.symm)]
    · unfold findNode
      split
      · rfl
      · exact findNode_replaceNode_other rest s s' n h

theorem findNode_dropEntry_other (es : FsEntries) (s s' : String)
    (h : s' ≠ s) : findNode (dropEntry es s) s' = findNode es s' := by
  match es with
  | FsEntries.nil => rfl
  | FsEntries.cons name node rest =>
    unfold dropEntry
    split
    · rename_i hEq
      subst hEq
      show findNode rest s' = if name = s' then some node else findNode rest s'
      rw [if_neg (fun hEq' => h hEq'.symm)]
    · unfold findNode
      split
      · rfl
      · exact findNode_dropEntry_other rest s s' h

theorem entryNames_replaceNode (es : FsEntries) (s : String) (n : FsNode) :
    entryNames (replaceNode es s n) = entryNames es := by
  match es with
  | FsEntries.nil => rfl
  | FsEntries.cons name node rest =>
    unfold replaceNode
    split
    · rfl
    · unfold entryNames
      rw [entryNames_replaceNode rest s n]

theorem entryNames_appendEntry (es : FsEntries) (s : String) (n : FsNode) :
    entryNames (appendEntry es s n) = entryNames es ++ [s] := by
  match es with
  | FsEntries.nil => rfl
  | FsEntries.cons name node rest =>
    unfold appendEntry entryNames
    rw [entryNames_appendEntry rest s n]
    rfl

theorem entryNames_dropEntry_subset (es : FsEntries) (s x : String)
    (h : x ∈ entryNames (dropEntry es s)) : x ∈ entryNames es := by
  match es with
  | FsEntries.nil => exact h
  | FsEntries.cons name node rest =>
    unfold dropEntry at h
    split at h
    · exact List.mem_cons_of_mem _ h
    · unfold entryNames at h ⊢
      rcases List.mem_cons.mp h with h' | h'
      · exact h' ▸ List.mem_cons_self _ _
      · exact List.mem_cons_of_mem _ (entryNames_dropEntry_subset rest s x h')

theorem wf_names_nodup (es : FsEntries) (hw : wfEntries es = true) :
    (entryNames es).Nodup := by
  match es with
  | FsEntries.nil => simp [entryNames]
  | FsEntries.cons name node rest =>
    obtain ⟨_, h2, _, h4⟩ := (wfEntries_cons_iff _ _ _).mp hw
    unfold entryNames
    exact List.nodup_cons.mpr ⟨h2, wf_names_nodup rest h4⟩

theorem findNode_dropEntry_self (es : FsEntries) (s : String)
    (hnd : (entryNames es).Nodup) : findNode (dropEntry es s) s = none := by
  match es with
  | FsEntries.nil => rfl
  | FsEntries.cons name node rest =>
    unfold entryNames at hnd
    obtain ⟨hnm, hnd'⟩ := List.nodup_cons.mp hnd
    unfold dropEntry
    split
    · rename_i hEq
      rw [findNode_none_iff]
      exact hEq ▸ hnm
    · rename_i hne
      unfold findNode
      rw [if_neg hne]
      exact findNode_dropEntry_self rest s hnd'

theorem lookupSegs_head_congr (qh : String) (qt : List String) (es1 es2 : FsEntries)
    (h : findNode es1 qh = findNode es2 qh) :
    lookupSegs (qh :: qt) es1 = lookupSegs (qh :: qt) es2 := by
  cases qt with
  | nil =>
    show findNode es1 qh = findNode es2 qh
    exact h
  | cons b t' =>
    rw [lookupSegs_cons _ _ _ (by simp), lookupSegs_cons _ _ _ (by simp), h]


/-! ### Effect lemmas for `writeSegs` -/

theorem pathCompatible_nil (q : List String) (hq : q ≠ []) :
    pathCompatible q FsEntries.nil = true := by
  match q with
  | [s] => rfl
  | s :: s2 :: rest => rfl

theorem writeSegs_ok : ∀ (segs : List String) (es : FsEntries) (c : String),
    segs ≠ [] → pathCompatible segs es = true →
    ∃ es', writeSegs segs es c = Except.ok es'
  | [], es, c, h, _ => absurd rfl h
  | [s], es, c, _, hcompat => by
    simp only [pathCompatible] at hcompat
    cases hf : findNode es s with
    | none =>
      refine ⟨appendEntry es s (FsNode.file c true), ?_⟩
      simp only [writeSegs]
      rw [hf]
    | some v =>
      rw [hf] at hcompat
      cases v with
      | file c' r =>
        refine ⟨replaceNode es s (FsNode.file c true), ?_⟩
        simp only [writeSegs]
        rw [hf]
      | dir sub => cases hcompat
      | broken => cases hcompat
  | s :: s2 :: rest, es, c, _, hcompat => by
    simp only [pathCompatible] at hcompat
    cases hf : findNode es s with
    | none =>
      obtain ⟨sub, hsub⟩ := writeSegs_ok (s2 :: rest) FsEntries.nil c (by simp)
        (pathCompatible_nil _ (by simp))
      refine ⟨appendEntry es s (FsNode.dir sub), ?_⟩
      simp only [writeSegs]
      rw [hf, hsub]
    | some v =>
      rw [hf] at hcompat
      cases v with
      | dir sub =>
        obtain ⟨sub', hsub'⟩ := writeSegs_ok (s2 :: rest) sub c (by simp) hcompat
        refine ⟨replaceNode es s (FsNode.dir sub'), ?_⟩
        simp only [writeSegs, hf, hsub']
      | file c' r => cases hcompat
      | broken => cases hcompat

theorem lookup_writeSegs_self : ∀ (segs : List String) (es es' : FsEntries) (c : String),
    writeSegs segs es c = Except.ok es' →
    lookupSegs segs es' = some (FsNode.file c true)
  | [], es, es', c, h => by cases h
  | [s], es, es', c, h => by
    simp only [writeSegs] at h
    cases hf : findNode es s with
    | none =>
      rw [hf] at h
      cases Except.ok.inj h
      show findNode (appendEntry es s (FsNode.file c true)) s = _
      rw [findNode_appendEntry_self es s _ hf]
    | some v =>
      rw [hf] at h
      cases v with
      | file c' r =>
        cases Except.ok.inj h
        show findNode (replaceNode es s (FsNode.file c true)) s = _
        rw [findNode_replaceNode_self es s _ (by rw [hf]; simp)]
      | dir sub => cases h
      | broken => cases h
  | s :: s2 :: rest, es, es', c, h => by
    simp only [writeSegs] at h
    cases hf : findNode es s with
    | none =>
      rw [hf] at h
      cases hw : writeSegs (s2 :: rest) FsEntries.nil c with
      | error e => rw [hw] at h; cases h
      | ok sub =>
        rw [hw] at h
        cases Except.ok.inj h
        rw [lookupSegs_cons s (s2 :: rest) _ (by simp),
            findNode_appendEntry_self es s _ hf]
        exact lookup_writeSegs_self (s2 :: rest) FsEntries.nil sub c hw
    | some v =>
      rw [hf] at h
      cases v with
      | file c' r => cases h
      | broken => cases h
      | dir sub =>
        cases hw : writeSegs (s2 :: rest) sub c with
        | error e => simp only [hw] at h; cases h
        | ok sub' =>
          simp only [hw] at h
          cases Except.ok.inj h
          rw [lookupSegs_cons s (s2 :: rest) _ (by simp),
              findNode_replaceNode_self es s _ (by rw [hf]; simp)]
          exact lookup_writeSegs_self (s2 :: rest) sub sub' c hw

theorem lookup_writeSegs_fresh : ∀ (segs : List String) (es' : FsEntries) (c : String)
    (q : List String),
    writeSegs segs FsEntries.nil c = Except.ok es' →
    ¬(q <+: segs) → ¬(segs <+: q) → lookupSegs q es' = none
  | segs, es', c, [], h, hq1, hq2 => rfl
  | [], es', c, qh :: qt, h, hq1, hq2 => by cases h
  | [s], es', c, qh :: qt, h, hq1, hq2 => by
    simp only [writeSegs, findNode] at h
    cases Except.ok.inj h
    by_cases hEq : qh = s
    · subst hEq
      cases qt with
      | nil => exact absurd (List.prefix_refl _) hq1
      | cons b t' => exact absurd ⟨b :: t', rfl⟩ hq2
    · cases qt with
      | nil =>
        show findNode (appendEntry FsEntries.nil s (FsNode.file c true)) qh = none
        show (if s = qh then some (FsNode.file c true) else none) = none
        rw [if_neg (fun hEq' => hEq hEq'.symm)]
      | cons b t' =>
        rw [lookupSegs_cons qh (b :: t') _ (by simp)]
        show (match (if s = qh then some (FsNode.file c true) else none) with
              | some (FsNode.dir sub) => lookupSegs (b :: t') sub
              | _ => none) = none
        rw [if_neg (fun hEq' => hEq hEq'.symm)]
  | s :: s2 :: rest, es', c, qh :: qt, h, hq1, hq2 => by
    simp only [writeSegs, findNode] at h
    cases hw : writeSegs (s2 :: rest) FsEntries.nil c with
    | error e => rw [hw] at h; cases h
    | ok sub =>
      rw [hw] at h
      cases Except.ok.inj h
      by_cases hEq : qh = s
      · subst hEq
        cases qt with
        | nil => exact absurd ⟨s2 :: rest, rfl⟩ hq1
        | cons b t' =>
          rw [lookupSegs_cons qh (b :: t') _ (by simp)]
          show (match (if qh = qh then some (FsNode.dir sub) else none) with
                | some (FsNode.dir sub) => lookupSegs (b :: t') sub
                | _ => none) = none
          rw [if_pos rfl]
          exact lookup_writeSegs_fresh (s2 :: rest) sub c (b :: t') hw
            (fun hp => hq1 ((List.cons_prefix_cons).mpr ⟨rfl, hp⟩))
            (fun hp => hq2 ((List.cons_prefix_cons).mpr ⟨rfl, hp⟩))
      · cases qt with
        | nil =>
          show (if s = qh then some (FsNode.dir sub) else none) = none
          rw [if_neg (fun hEq' => hEq hEq'.symm)]
        | cons b t' =>
          rw [lookupSegs_cons qh (b :: t') _ (by simp)]
          show (match (if s = qh then some (FsNode.dir sub) else none) with
                | some (FsNode.dir sub) => lookupSegs (b :: t') sub
                | _ => none) = none
          rw [if_neg (fun hEq' => hEq hEq'.symm)]


theorem lookup_writeSegs_spine : ∀ (segs : List String) (es es' : FsEntries)
    (c : String) (pq : List String),
    writeSegs segs es c = Except.ok es' → pq ≠ [] → pq <+: segs → pq ≠ segs →
    ∃ sub, lookupSegs pq es' = some (FsNode.dir sub)
  | [], es, es', c, pq, h, _, _, _ => by cases h
  | [s], es, es', c, pq, h, hne, hpre, hneq => by
    exfalso
    obtain ⟨t, ht⟩ := hpre
    cases pq with
    | nil => exact hne rfl
    | cons a pt =>
      cases List.cons.inj ht.symm with
      | intro h1 h2 =>
        cases List.append_eq_nil.mp h2.symm with
        | intro h3 _ => exact hneq (by rw [h1, h3])
  | s :: s2 :: rest, es, es', c, pq, h, hne, hpre, hneq => by
    simp only [writeSegs] at h
    cases pq with
    | nil => exact absurd rfl hne
    | cons a pt =>
      obtain ⟨has, hpt⟩ := (List.cons_prefix_cons).mp hpre
      rw [has]
      cases hf : findNode es s with
      | none =>
        rw [hf] at h
        cases hw : writeSegs (s2 :: rest) FsEntries.nil c with
        | error e => simp only [hw] at h; cases h
        | ok sub =>
          simp only [hw] at h
          cases Except.ok.inj h
          cases pt with
          | nil =>
            refine ⟨sub, ?_⟩
            show findNode (appendEntry es s (FsNode.dir sub)) s = _
            rw [findNode_appendEntry_self es s _ hf]
          | cons b t' =>
            rw [lookupSegs_cons s (b :: t') _ (by simp),
                findNode_appendEntry_self es s _ hf]
            exact lookup_writeSegs_spine (s2 :: rest) FsEntries.nil sub c (b :: t')
              hw (by simp) hpt (fun hEq => hneq (by rw [has, hEq]))
      | some v =>
        rw [hf] at h
        cases v with
        | file c' r => cases h
        | broken => cases h
        | dir sub =>
          cases hw : writeSegs (s2 :: rest) sub c with
          | error e => simp only [hw] at h; cases h
          | ok sub' =>
            simp only [hw] at h
            cases Except.ok.inj h
            cases pt with
            | nil =>
              refine ⟨sub', ?_⟩
              show findNode (replaceNode es s (FsNode.dir sub')) s = _
              rw [findNode_replaceNode_self es s _ (by rw [hf]; simp)]
            | cons b t' =>
              rw [lookupSegs_cons s (b :: t') _ (by simp),
                  findNode_replaceNode_self es s _ (by rw [hf]; simp)]
              exact lookup_writeSegs_spine (s2 :: rest) sub sub' c (b :: t')
                hw (by simp) hpt (fun hEq => hneq (by rw [has, hEq]))

theorem lookup_writeSegs_frame : ∀ (segs : List String) (es es' : FsEntries)
    (c : String) (q : List String),
    writeSegs segs es c = Except.ok es' →
    ¬(segs <+: q) → ¬(q <+: segs) → lookupSegs q es' = lookupSegs q es
  | segs, es, es', c, [], h, h1, h2 => rfl
  | [], es, es', c, qh :: qt, h, h1, h2 => by cases h
  | [s], es, es', c, qh :: qt, h, h1, h2 => by
    have hqh : qh ≠ s := by
      intro hEq
      subst hEq
      cases qt with
      | nil => exact h2 (List.prefix_refl _)
      | cons b t' => exact h1 ⟨b :: t', rfl⟩
    simp only [writeSegs] at h
    cases hf : findNode es s with
    | none =>
      rw [hf] at h
      cases Except.ok.inj h
      exact lookupSegs_head_congr qh qt _ es (findNode_appendEntry_other es s qh _ hqh)
    | some v =>
      rw [hf] at h
      cases v with
      | file c' r =>
        cases Except.ok.inj h
        exact lookupSegs_head_congr qh qt _ es (findNode_replaceNode_other es s qh _ hqh)
      | dir sub => cases h
      | broken => cases h
  | s :: s2 :: rest, es, es', c, qh :: qt, h, h1, h2 => by
    simp only [writeSegs] at h
    by_cases hqh : qh = s
    · rw [hqh] at h1 h2 ⊢
      have hqt : qt ≠ [] := by
        intro hEq
        subst hEq
        exact h2 ⟨s2 :: rest, rfl⟩
      have hqt1 : ¬((s2 :: rest) <+: qt) :=
        fun hp => h1 ((List.cons_prefix_cons).mpr ⟨rfl, hp⟩)
      have hqt2 : ¬(qt <+: (s2 :: rest)) :=
        fun hp => h2 ((List.cons_prefix_cons).mpr ⟨rfl, hp⟩)
      cases hf : findNode es s with
      | none =>
        rw [hf] at h
        cases hw : writeSegs (s2 :: rest) FsEntries.nil c with
        | error e => simp only [hw] at h; cases h
        | ok sub =>
          simp only [hw] at h
          cases Except.ok.inj h
          rw [lookupSegs_cons s qt _ hqt, lookupSegs_cons s qt es hqt,
              findNode_appendEntry_self es s _ hf, hf]
          exact lookup_writeSegs_fresh (s2 :: rest) sub c qt hw hqt2 hqt1
      | some v =>
        rw [hf] at h
        cases v with
        | file c' r => cases h
        | broken => cases h
        | dir sub =>
          cases hw : writeSegs (s2 :: rest) sub c with
          | error e => simp only [hw] at h; cases h
          | ok sub' =>
            simp only [hw] at h
            cases Except.ok.inj h
            rw [lookupSegs_cons s qt _ hqt, lookupSegs_cons s qt es hqt,
                findNode_replaceNode_self es s _ (by rw [hf]; simp), hf]
            exact lookup_writeSegs_frame (s2 :: rest) sub sub' c qt hw hqt1 hqt2
    · cases hf : findNode es s with
      | none =>
        rw [hf] at h
        cases hw : writeSegs (s2 :: rest) FsEntries.nil c with
        | error e => simp only [hw] at h; cases h
        | ok sub =>
          simp only [hw] at h
          cases Except.ok.inj h
          exact lookupSegs_head_congr qh qt _ es (findNode_appendEntry_other es s qh _ hqh)
      | some v =>
        rw [hf] at h
        cases v with
        | file c' r => cases h
        | broken => cases h
        | dir sub =>
          cases hw : writeSegs (s2 :: rest) sub c with
          | error e => simp only [hw] at h; cases h
          | ok sub' =>
            simp only [hw] at h
            cases Except.ok.inj h
            exact lookupSegs_head_congr qh qt _ es
              (findNode_replaceNode_other es s qh _ hqh)


/-! ### Preservation of well-formedness and cleanliness -/

theorem wf_appendEntry (es : FsEntries) (s : String) (n : FsNode)
    (hwf : wfEntries es = true) (hvalid : validNameB s = true)
    (hnot : s ∉ entryNames es) (hn : wfNode n = true) :
    wfEntries (appendEntry es s n) = true := by
  match es with
  | FsEntries.nil =>
    exact (wfEntries_cons_iff _ _ _).mpr ⟨hvalid, by simp [entryNames], hn, rfl⟩
  | FsEntries.cons name v r =>
    obtain ⟨h1, h2, h3, h4⟩ := (wfEntries_cons_iff _ _ _).mp hwf
    have hs : s ≠ name := by
      intro hEq
      exact hnot (hEq ▸ List.mem_cons_self _ _)
    have hnot' : s ∉ entryNames r := by
      intro hm
      exact hnot (List.mem_cons_of_mem _ hm)
    refine (wfEntries_cons_iff _ _ _).mpr ⟨h1, ?_, h3, wf_appendEntry r s n h4 hvalid hnot' hn⟩
    rw [entryNames_appendEntry]
    intro hm
    rcases List.mem_append.mp hm with hm | hm
    · exact h2 hm
    · exact hs (List.mem_singleton.mp hm).symm

theorem clean_appendEntry (es : FsEntries) (s : String) (n : FsNode)
    (hc : cleanEntries es = true) (hn : cleanNode n = true) :
    cleanEntries (appendEntry es s n) = true := by
  match es with
  | FsEntries.nil => exact (cleanEntries_cons_iff _ _ _).mpr ⟨hn, rfl⟩
  | FsEntries.cons name v r =>
    obtain ⟨h1, h2⟩ := (cleanEntries_cons_iff _ _ _).mp hc
    exact (cleanEntries_cons_iff _ _ _).mpr ⟨h1, clean_appendEntry r s n h2 hn⟩

theorem wf_replaceNode (es : FsEntries) (s : String) (n : FsNode)
    (hwf : wfEntries es = true) (hn : wfNode n = true) :
    wfEntries (replaceNode es s n) = true := by
  match es with
  | FsEntries.nil => exact hwf
  | FsEntries.cons name v r =>
    obtain ⟨h1, h2, h3, h4⟩ := (wfEntries_cons_iff _ _ _).mp hwf
    unfold replaceNode
    split
    · exact (wfEntries_cons_iff _ _ _).mpr ⟨h1, h2, hn, h4⟩
    · refine (wfEntries_cons_iff _ _ _).mpr ⟨h1, ?_, h3, wf_replaceNode r s n h4 hn⟩
      rw [entryNames_replaceNode]
      exact h2

theorem clean_replaceNode (es : FsEntries) (s : String) (n : FsNode)
    (hc : cleanEntries es = true) (hn : cleanNode n = true) :
    cleanEntries (replaceNode es s n) = true := by
  match es with
  | FsEntries.nil => exact hc
  | FsEntries.cons name v r =>
    obtain ⟨h1, h2⟩ := (cleanEntries_cons_iff _ _ _).mp hc
    unfold replaceNode
    split
    · exact (cleanEntries_cons_iff _ _ _).mpr ⟨hn, h2⟩
    · exact (cleanEntries_cons_iff _ _ _).mpr ⟨h1, clean_replaceNode r s n h2 hn⟩

theorem wf_dropEntry (es : FsEntries) (s : String) (hwf : wfEntries es = true) :
    wfEntries (dropEntry es s) = true := by
  match es with
  | FsEntries.nil => exact hwf
  | FsEntries.cons name v r =>
    obtain ⟨h1, h2, h3, h4⟩ := (wfEntries_cons_iff _ _ _).mp hwf
    unfold dropEntry
    split
    · exact h4
    · refine (wfEntries_cons_iff _ _ _).mpr ⟨h1, ?_, h3, wf_dropEntry r s h4⟩
      intro hm
      exact h2 (entryNames_dropEntry_subset r s name hm)

theorem clean_dropEntry (es : FsEntries) (s : String) (hc : cleanEntries es = true) :
    cleanEntries (dropEntry es s) = true := by
  match es with
  | FsEntries.nil => exact hc
  | FsEntries.cons name v r =>
    obtain ⟨h1, h2⟩ := (cleanEntries_cons_iff _ _ _).mp hc
    unfold dropEntry
    split
    · exact h2
    · exact (cleanEntries_cons_iff _ _ _).mpr ⟨h1, clean_dropEntry r s h2⟩

theorem wf_writeSegs : ∀ (segs : List String) (es es' : FsEntries) (c : String),
    writeSegs segs es c = Except.ok es' → wfEntries es = true →
    (∀ s ∈ segs, validNameB s = true) → wfEntries es' = true
  | [], es, es', c, h, _, _ => by cases h
  | [s], es, es', c, h, hwf, hv => by
    simp only [writeSegs] at h
    cases hf : findNode es s with
    | none =>
      rw [hf] at h
      cases Except.ok.inj h
      exact wf_appendEntry es s _ hwf (hv s (List.mem_cons_self _ _))
        ((findNode_none_iff es s).mp hf) rfl
    | some v =>
      rw [hf] at h
      cases v with
      | file c' r =>
        cases Except.ok.inj h
        exact wf_replaceNode es s _ hwf rfl
      | dir sub => cases h
      | broken => cases h
  | s :: s2 :: rest, es, es', c, h, hwf, hv => by
    have hv' : ∀ x ∈ s2 :: rest, validNameB x = true :=
      fun x hx => hv x (List.mem_cons_of_mem _ hx)
    simp only [writeSegs] at h
    cases hf : findNode es s with
    | none =>
      rw [hf] at h
      cases hw : writeSegs (s2 :: rest) FsEntries.nil c with
      | error e => simp only [hw] at h; cases h
      | ok sub =>
        simp only [hw] at h
        cases Except.ok.inj h
        have hsub : wfEntries sub = true := wf_writeSegs (s2 :: rest) _ sub c hw rfl hv'
        exact wf_appendEntry es s _ hwf (hv s (List.mem_cons_self _ _))
          ((findNode_none_iff es s).mp hf) hsub
    | some v =>
      rw [hf] at h
      cases v with
      | file c' r => cases h
      | broken => cases h
      | dir sub =>
        cases hw : writeSegs (s2 :: rest) sub c with
        | error e => simp only [hw] at h; cases h
        | ok sub' =>
          simp only [hw] at h
          cases Except.ok.inj h
          have hsubwf : wfEntries sub = true := by
            have := wf_findNode es s _ hwf hf
            simpa [wfNode] using this
          have hsub' : wfEntries sub' = true :=
            wf_writeSegs (s2 :: rest) sub sub' c hw hsubwf hv'
          exact wf_replaceNode es s _ hwf hsub'

theorem clean_writeSegs : ∀ (segs : List String) (es es' : FsEntries) (c : String),
    writeSegs segs es c = Except.ok es' → cleanEntries es = true →
    cleanEntries es' = true
  | [], es, es', c, h, _ => by cases h
  | [s], es, es', c, h, hc => by
    simp only [writeSegs] at h
    cases hf : findNode es s with
    | none =>
      rw [hf] at h
      cases Except.ok.inj h
      exact clean_appendEntry es s _ hc rfl
    | some v =>
      rw [hf] at h
      cases v with
      | file c' r =>
        cases Except.ok.inj h
        exact clean_replaceNode es s _ hc rfl
      | dir sub => cases h
      | broken => cases h
  | s :: s2 :: rest, es, es', c, h, hc => by
    simp only [writeSegs] at h
    cases hf : findNode es s with
    | none =>
      rw [hf] at h
      cases hw : writeSegs (s2 :: rest) FsEntries.nil c with
      | error e => simp only [hw] at h; cases h
      | ok sub =>
        simp only [hw] at h
        cases Except.ok.inj h
        have hsub : cleanEntries sub = true := clean_writeSegs (s2 :: rest) _ sub c hw rfl
        exact clean_appendEntry es s _ hc hsub
    | some v =>
      rw [hf] at h
      cases v with
      | file c' r => cases h
      | broken => cases h
      | dir sub =>
        cases hw : writeSegs (s2 :: rest) sub c with
        | error e => simp only [hw] at h; cases h
        | ok sub' =>
          simp only [hw] at h
          cases Except.ok.inj h
          have hsubc : cleanEntries sub = true := by
            have := clean_findNode es s _ hc hf
            simpa [cleanNode] using this
          exact clean_replaceNode es s _ hc (clean_writeSegs (s2 :: rest) sub sub' c hw hsubc)


/-! ### Effect lemmas for `removeSegs` -/

theorem lookup_removeSegs_frame : ∀ (segs : List String) (es : FsEntries)
    (q : List String),
    ¬(segs <+: q) → ¬(q <+: segs) →
    lookupSegs q (removeSegs segs es) = lookupSegs q es
  | segs, es, [], h1, h2 => rfl
  | [], es, qh :: qt, h1, h2 => by
    exact absurd List.nil_prefix h1
  | [s], es, qh :: qt, h1, h2 => by
    have hqh : qh ≠ s := by
      intro hEq
      subst hEq
      cases qt with
      | nil => exact h2 (List.prefix_refl _)
      | cons b t' => exact h1 ⟨b :: t', rfl⟩
    simp only [removeSegs]
    cases hf : findNode es s with
    | none => rfl
    | some v =>
      cases v with
      | dir sub => rfl
      | file c' r =>
        exact lookupSegs_head_congr qh qt _ es (findNode_dropEntry_other es s qh hqh)
      | broken =>
        exact lookupSegs_head_congr qh qt _ es (findNode_dropEntry_other es s qh hqh)
  | s :: s2 :: rest, es, qh :: qt, h1, h2 => by
    simp only [removeSegs]
    cases hf : findNode es s with
    | none => rfl
    | some v =>
      cases v with
      | file c' r => rfl
      | broken => rfl
      | dir sub =>
        by_cases hqh : qh = s
        · rw [hqh] at h1 h2 ⊢
          have hqt : qt ≠ [] := by
            intro hEq
            subst hEq
            exact h2 ⟨s2 :: rest, rfl⟩
          have hqt1 : ¬((s2 :: rest) <+: qt) :=
            fun hp => h1 ((List.cons_prefix_cons).mpr ⟨rfl, hp⟩)
          have hqt2 : ¬(qt <+: (s2 :: rest)) :=
            fun hp => h2 ((List.cons_prefix_cons).mpr ⟨rfl, hp⟩)
          rw [lookupSegs_cons s qt _ hqt, lookupSegs_cons s qt es hqt,
              findNode_replaceNode_self es s _ (by rw [hf]; simp), hf]
          exact lookup_removeSegs_frame (s2 :: rest) sub qt hqt1 hqt2
        · exact lookupSegs_head_congr qh qt _ es (findNode_replaceNode_other es s qh _ hqh)

theorem lookup_removeSegs_self : ∀ (segs : List String) (es : FsEntries),
    wfEntries es = true →
    (∃ c r, lookupSegs segs es = some (FsNode.file c r)) →
    lookupSegs segs (removeSegs segs es) = none
  | [], es, _, h => by
    obtain ⟨c, r, h⟩ := h
    cases h
  | [s], es, hwf, h => by
    obtain ⟨c, r, h⟩ := h
    simp only [removeSegs]
    have hf : findNode es s = some (FsNode.file c r) := h
    rw [hf]
    show findNode (dropEntry es s) s = none
    exact findNode_dropEntry_self es s (wf_names_nodup es hwf)
  | s :: s2 :: rest, es, hwf, h => by
    obtain ⟨c, r, h⟩ := h
    rw [lookupSegs_cons s (s2 :: rest) es (by simp)] at h
    simp only [removeSegs]
    cases hf : findNode es s with
    | none => rw [hf] at h; cases h
    | some v =>
      rw [hf] at h
      cases v with
      | file c' r' => cases h
      | broken => cases h
      | dir sub =>
        have hsubwf : wfEntries sub = true := by
          have := wf_findNode es s _ hwf hf
          simpa [wfNode] using this
        rw [lookupSegs_cons s (s2 :: rest) _ (by simp),
            findNode_replaceNode_self es s _ (by rw [hf]; simp)]
        exact lookup_removeSegs_self (s2 :: rest) sub hsubwf ⟨c, r, h⟩

theorem wf_removeSegs : ∀ (segs : List String) (es : FsEntries),
    wfEntries es = true → wfEntries (removeSegs segs es) = true
  | [], es, hwf => hwf
  | [s], es, hwf => by
    simp only [removeSegs]
    cases hf : findNode es s with
    | none => exact hwf
    | some v =>
      cases v with
      | dir sub => exact hwf
      | file c r => exact wf_dropEntry es s hwf
      | broken => exact wf_dropEntry es s hwf
  | s :: s2 :: rest, es, hwf => by
    simp only [removeSegs]
    cases hf : findNode es s with
    | none => exact hwf
    | some v =>
      cases v with
      | file c r => exact hwf
      | broken => exact hwf
      | dir sub =>
        have hsubwf : wfEntries sub = true := by
          have := wf_findNode es s _ hwf hf
          simpa [wfNode] using this
        exact wf_replaceNode es s _ hwf (wf_removeSegs (s2 :: rest) sub hsubwf)

theorem clean_removeSegs : ∀ (segs : List String) (es : FsEntries),
    cleanEntries es = true → cleanEntries (removeSegs segs es) = true
  | [], es, hc => hc
  | [s], es, hc => by
    simp only [removeSegs]
    cases hf : findNode es s with
    | none => exact hc
    | some v =>
      cases v with
      | dir sub => exact hc
      | file c r => exact clean_dropEntry es s hc
      | broken => exact clean_dropEntry es s hc
  | s :: s2 :: rest, es, hc => by
    simp only [removeSegs]
    cases hf : findNode es s with
    | none => exact hc
    | some v =>
      cases v with
      | file c r => exact hc
      | broken => exact hc
      | dir sub =>
        have hsubc : cleanEntries sub = true := by
          have := clean_findNode es s _ hc hf
          simpa [cleanNode] using this
        exact clean_replaceNode es s _ hc (clean_removeSegs (s2 :: rest) sub hsubc)


/-! ### Listing characterization lemmas -/

theorem findNode_cons_self (name : String) (node : FsNode) (rest : FsEntries) :
    findNode (FsEntries.cons name node rest) name = some node := by
  show (if name = name then some node else findNode rest name) = some node
  rw [if_pos rfl]

theorem findNode_cons_ne (name s : String) (node : FsNode) (rest : FsEntries)
    (h : name ≠ s) :
    findNode (FsEntries.cons name node rest) s = findNode rest s := by
  show (if name = s then some node else findNode rest s) = findNode rest s
  rw [if_neg h]

theorem lookupSegs_head_mem (qh : String) (qt : List String) (es : FsEntries)
    (v : FsNode) (h : lookupSegs (qh :: qt) es = some v) : qh ∈ entryNames es := by
  by_contra hmem
  have hf : findNode es qh = none := (findNode_none_iff es qh).mpr hmem
  cases qt with
  | nil =>
    rw [show lookupSegs [qh] es = findNode es qh from rfl, hf] at h
    cases h
  | cons b t' =>
    rw [lookupSegs_cons qh (b :: t') es (by simp), hf] at h
    cases h

theorem listEntries_segs (es : FsEntries) :
    ∀ (pfx ign : List String) (p : String), wfEntries es = true →
      (∀ s ∈ pfx, validNameB s = true) →
      p ∈ listEntries es pfx ign →
      ∃ segs, segs ≠ [] ∧ (∀ s ∈ segs, validNameB s = true)
        ∧ p = joinSegs (pfx ++ segs)
        ∧ ∃ c r, lookupSegs segs es = some (FsNode.file c r) := by
  match es with
  | FsEntries.nil =>
    intro pfx ign p _ _ h
    simp [listEntries] at h
  | FsEntries.cons name node rest =>
    intro pfx ign p hwf hpfx h
    obtain ⟨hvn, hnm, hwn, hwr⟩ := (wfEntries_cons_iff _ _ _).mp hwf
    have lift : (∃ segs, segs ≠ [] ∧ (∀ s ∈ segs, validNameB s = true)
          ∧ p = joinSegs (pfx ++ segs)
          ∧ ∃ c r, lookupSegs segs rest = some (FsNode.file c r)) →
        ∃ segs, segs ≠ [] ∧ (∀ s ∈ segs, validNameB s = true)
          ∧ p = joinSegs (pfx ++ segs)
          ∧ ∃ c r, lookupSegs segs (FsEntries.cons name node rest)
              = some (FsNode.file c r) := by
      rintro ⟨segs, h1, h2, h3, c, r, h4⟩
      refine ⟨segs, h1, h2, h3, c, r, ?_⟩
      cases segs with
      | nil => exact absurd rfl h1
      | cons s0 t =>
        have hs0 : s0 ∈ entryNames rest := lookupSegs_head_mem s0 t rest _ h4
        have hne : name ≠ s0 := fun hEq => hnm (hEq ▸ hs0)
        rw [lookupSegs_head_congr s0 t _ rest (findNode_cons_ne name s0 node rest hne)]
        exact h4
    simp only [listEntries] at h
    split at h
    · exact lift (listEntries_segs rest pfx ign p hwr hpfx h)
    · split at h
      · exact lift (listEntries_segs rest pfx ign p hwr hpfx h)
      · cases node with
        | broken => simp at h
        | file c r =>
          rcases List.mem_cons.mp h with h | h
          · refine ⟨[name], by simp, by simpa using hvn, h, c, r, ?_⟩
            show findNode (FsEntries.cons name (FsNode.file c r) rest) name = _
            rw [findNode_cons_self]
          · exact lift (listEntries_segs rest pfx ign p hwr hpfx h)
        | dir es' =>
          rcases List.mem_append.mp h with h | h
          · have hwf' : wfEntries es' = true := by simpa [wfNode] using hwn
            have hpfx' : ∀ s ∈ pfx ++ [name], validNameB s = true := by
              intro s hs
              rcases List.mem_append.mp hs with hs | hs
              · exact hpfx s hs
              · exact (List.mem_singleton.mp hs) ▸ hvn
            obtain ⟨segs', h1, h2, h3, c, r, h4⟩ :=
              listEntries_segs es' (pfx ++ [name]) ign p hwf' hpfx' h
            refine ⟨name :: segs', by simp, ?_, ?_, c, r, ?_⟩
            · intro s hs
              rcases List.mem_cons.mp hs with hs | hs
              · exact hs ▸ hvn
              · exact h2 s hs
            · rw [h3, List.append_assoc]
              rfl
            · rw [lookupSegs_cons name segs' _ h1, findNode_cons_self]
              exact h4
          · exact lift (listEntries_segs rest pfx ign p hwr hpfx h)


theorem joinSegs_inj (a b : List String) (ha : a ≠ []) (hb : b ≠ [])
    (hva : ∀ s ∈ a, validNameB s = true) (hvb : ∀ s ∈ b, validNameB s = true)
    (h : joinSegs a = joinSegs b) : a = b := by
  rw [← splitSlash_joinSegs a ha hva, ← splitSlash_joinSegs b hb hvb, h]

theorem listEntries_nodup (es : FsEntries) :
    ∀ (pfx ign : List String), wfEntries es = true →
      (∀ s ∈ pfx, validNameB s = true) → (listEntries es pfx ign).Nodup := by
  match es with
  | FsEntries.nil => intro pfx ign _ _; simp [listEntries]
  | FsEntries.cons name node rest =>
    intro pfx ign hwf hpfx
    obtain ⟨hvn, hnm, hwn, hwr⟩ := (wfEntries_cons_iff _ _ _).mp hwf
    have hvpn : ∀ s ∈ pfx ++ [name], validNameB s = true := by
      intro s hs
      rcases List.mem_append.mp hs with hs | hs
      · exact hpfx s hs
      · exact (List.mem_singleton.mp hs) ▸ hvn
    simp only [listEntries]
    split
    · exact listEntries_nodup rest pfx ign hwr hpfx
    · split
      · exact listEntries_nodup rest pfx ign hwr hpfx
      · cases node with
        | broken => simp
        | file c r =>
          refine List.nodup_cons.mpr ⟨?_, listEntries_nodup rest pfx ign hwr hpfx⟩
          intro hmem
          obtain ⟨segs2, h1, h2, h3, _, _, h4⟩ :=
            listEntries_segs rest pfx ign _ hwr hpfx hmem
          have heq : pfx ++ [name] = pfx ++ segs2 :=
            joinSegs_inj _ _ (by simp) (by simp [h1]) hvpn
              (by
                intro s hs
                rcases List.mem_append.mp hs with hs | hs
                · exact hpfx s hs
                · exact h2 s hs) h3
          have : [name] = segs2 := by
            have := List.append_cancel_left heq
            exact this
          cases segs2 with
          | nil => cases this
          | cons s0 t =>
            cases List.cons.inj this with
            | intro hh _ =>
              exact hnm (hh ▸ lookupSegs_head_mem s0 t rest _ h4)
        | dir es' =>
          have hwf' : wfEntries es' = true := by simpa [wfNode] using hwn
          rw [List.nodup_append]
          refine ⟨listEntries_nodup es' (pfx ++ [name]) ign hwf' hvpn,
                  listEntries_nodup rest pfx ign hwr hpfx, ?_⟩
          intro p hp hq
          obtain ⟨segs1, g1, g2, g3, _, _, g4⟩ :=
            listEntries_segs es' (pfx ++ [name]) ign p hwf' hvpn hp
          obtain ⟨segs2, k1, k2, k3, _, _, k4⟩ :=
            listEntries_segs rest pfx ign p hwr hpfx hq
          rw [List.append_assoc] at g3
          have heq : pfx ++ (name :: segs1) = pfx ++ segs2 := by
            have g3' : p = joinSegs (pfx ++ (name :: segs1)) := by
              rw [g3]
              rfl
            refine joinSegs_inj _ _ (by simp) (by simp [k1]) ?_
              (by
                intro s hs
                rcases List.mem_append.mp hs with hs | hs
                · exact hpfx s hs
                · exact k2 s hs)
              (by rw [← g3', ← k3])
            intro s hs
            rcases List.mem_append.mp hs with hs | hs
            · exact hpfx s hs
            · rcases List.mem_cons.mp hs with hs | hs
              · exact hs ▸ hvn
              · exact g2 s hs
          have : name :: segs1 = segs2 := List.append_cancel_left heq
          cases segs2 with
          | nil => cases this
          | cons s0 t =>
            cases List.cons.inj this with
            | intro hh _ =>
              exact hnm (hh ▸ lookupSegs_head_mem s0 t rest _ k4)

theorem listing_antichain (es : FsEntries) (ign : List String) (p q : String)
    (hwf : wfEntries es = true) (hp : p ∈ listEntries es [] ign)
    (hq : q ∈ listEntries es [] ign) (hne : p ≠ q) :
    ¬(splitSlash p <+: splitSlash q) := by
  obtain ⟨sp, hp1, hp2, hp3, cp, rp, hp4⟩ :=
    listEntries_segs es [] ign p hwf (by simp) hp
  obtain ⟨sq, hq1, hq2, hq3, cq, rq, hq4⟩ :=
    listEntries_segs es [] ign q hwf (by simp) hq
  rw [List.nil_append] at hp3 hq3
  rw [hp3, hq3, splitSlash_joinSegs sp hp1 hp2, splitSlash_joinSegs sq hq1 hq2]
  rintro ⟨t, ht⟩
  cases t with
  | nil =>
    apply hne
    rw [hp3, hq3, ← ht]
    simp
  | cons x ts =>
    rw [← ht] at hq4
    rw [lookupSegs_append sp es (x :: ts) hp1 (by simp), hp4] at hq4
    cases hq4

theorem hashFileAt_dir_ok_iff (es : FsEntries) (rel hsh : String) :
    hashFileAt (FsNode.dir es) rel = Except.ok hsh
      ↔ lookupSegs (splitSlash rel) es = some (FsNode.file hsh true) := by
  cases hl : lookupSegs (splitSlash rel) es with
  | none => simp [hashFileAt, lookupPath, sha1Hex, hl]
  | some v =>
    cases v with
    | file c r =>
      cases r with
      | true =>
        simp only [hashFileAt, lookupPath, sha1Hex, hl]
        constructor
        · intro h
          rw [Except.ok.inj h]
        · intro h
          cases Option.some.inj h
          rfl
      | false => simp [hashFileAt, lookupPath, sha1Hex, hl]
    | dir sub => simp [hashFileAt, lookupPath, sha1Hex, hl]
    | broken => simp [hashFileAt, lookupPath, sha1Hex, hl]

theorem existsPath_dir_file (es : FsEntries) (rel : String) (c : String) (r : Bool)
    (h : lookupSegs (splitSlash rel) es = some (FsNode.file c r)) :
    existsPath (FsNode.dir es) rel = true := by
  simp [existsPath, lookupPath, h]

theorem existsPath_dir_none (es : FsEntries) (rel : String)
    (h : lookupSegs (splitSlash rel) es = none) :
    existsPath (FsNode.dir es) rel = false := by
  simp [existsPath, lookupPath, h]

theorem contentAt_dir (es : FsEntries) (rel c : String) (r : Bool)
    (h : lookupSegs (splitSlash rel) es = some (FsNode.file c r)) :
    contentAt (FsNode.dir es) rel = c := by
  simp [contentAt, lookupPath, h]


/-! ### Listing monotonicity under deletions -/

theorem listEntries_cons_eq (name : String) (node : FsNode) (rest : FsEntries)
    (pfx ign : List String) :
    listEntries (FsEntries.cons name node rest) pfx ign
      = if entrySkipped pfx ign name then listEntries rest pfx ign
        else match node with
          | FsNode.broken => []
          | FsNode.file _ _ => joinSegs (pfx ++ [name]) :: listEntries rest pfx ign
          | FsNode.dir es => listEntries es (pfx ++ [name]) ign ++ listEntries rest pfx ign := by
  by_cases h1 : pfx = []
  · by_cases h2 : name = SNAPSHOTS_DIR_NAME
    · simp [listEntries, entrySkipped, h1, h2]
    · by_cases h3 : isIgnored (joinSegs (pfx ++ [name])) ign = true
      · simp [listEntries, entrySkipped, h1, h2, h3]
      · simp [listEntries, entrySkipped, h1, h2, h3]
  · by_cases h3 : isIgnored (joinSegs (pfx ++ [name])) ign = true
    · simp [listEntries, entrySkipped, h1, h3]
    · simp [listEntries, entrySkipped, h1, h3]

theorem listEntries_dropEntry_subset (es : FsEntries) :
    ∀ (s : String) (pfx ign : List String) (p : String), cleanEntries es = true →
      p ∈ listEntries (dropEntry es s) pfx ign → p ∈ listEntries es pfx ign := by
  match es with
  | FsEntries.nil => intro s pfx ign p _ h; exact h
  | FsEntries.cons name node rest =>
    intro s pfx ign p hc h
    obtain ⟨hcn, hcr⟩ := (cleanEntries_cons_iff name node rest).mp hc
    by_cases hns : name = s
    · have hd : dropEntry (FsEntries.cons name node rest) s = rest := by
        show (if name = s then rest else FsEntries.cons name node (dropEntry rest s)) = rest
        rw [if_pos hns]
      rw [hd] at h
      rw [listEntries_cons_eq]
      by_cases hskip : entrySkipped pfx ign name = true
      · rw [if_pos hskip]; exact h
      · rw [if_neg hskip]
        cases node with
        | broken => simp [cleanNode] at hcn
        | file c r => exact List.mem_cons_of_mem _ h
        | dir es2 => exact List.mem_append_right _ h
    · have hd : dropEntry (FsEntries.cons name node rest) s
          = FsEntries.cons name node (dropEntry rest s) := by
        show (if name = s then rest else FsEntries.cons name node (dropEntry rest s)) = _
        rw [if_neg hns]
      rw [hd] at h
      rw [listEntries_cons_eq] at h ⊢
      by_cases hskip : entrySkipped pfx ign name = true
      · rw [if_pos hskip] at h ⊢
        exact listEntries_dropEntry_subset rest s pfx ign p hcr h
      · rw [if_neg hskip] at h ⊢
        cases node with
        | broken => exact h
        | file c r =>
          rcases List.mem_cons.mp h with h | h
          · exact List.mem_cons.mpr (Or.inl h)
          · exact List.mem_cons_of_mem _
              (listEntries_dropEntry_subset rest s pfx ign p hcr h)
        | dir es2 =>
          rcases List.mem_append.mp h with h | h
          · exact List.mem_append_left _ h
          · exact List.mem_append_right _
              (listEntries_dropEntry_subset rest s pfx ign p hcr h)

theorem listEntries_replace_dir_subset (es : FsEntries) :
    ∀ (s : String) (sub sub' : FsEntries) (pfx ign : List String) (p : String),
      cleanEntries es = true → findNode es s = some (FsNode.dir sub) →
      (∀ q, q ∈ listEntries sub' (pfx ++ [s]) ign → q ∈ listEntries sub (pfx ++ [s]) ign) →
      p ∈ listEntries (replaceNode es s (FsNode.dir sub')) pfx ign →
      p ∈ listEntries es pfx ign := by
  match es with
  | FsEntries.nil => intro s sub sub' pfx ign p _ hf; cases hf
  | FsEntries.cons name node rest =>
    intro s sub sub' pfx ign p hc hf hsub h
    obtain ⟨hcn, hcr⟩ := (cleanEntries_cons_iff name node rest).mp hc
    by_cases hns : name = s
    · subst hns
      have hself : findNode (FsEntries.cons name node rest) name = some node := by
        show (if name = name then some node else findNode rest name) = some node
        rw [if_pos rfl]
      have hnode : node = FsNode.dir sub := Option.some.inj (hself.symm.trans hf)
      have hrepl : replaceNode (FsEntries.cons name node rest) name (FsNode.dir sub')
          = FsEntries.cons name (FsNode.dir sub') rest := by
        show (if name = name then FsEntries.cons name (FsNode.dir sub') rest else _) = _
        rw [if_pos rfl]
      rw [hrepl] at h
      rw [listEntries_cons_eq] at h
      rw [listEntries_cons_eq]
      by_cases hskip : entrySkipped pfx ign name = true
      · rw [if_pos hskip] at h ⊢
        exact h
      · rw [if_neg hskip] at h ⊢
        rw [hnode]
        rcases List.mem_append.mp h with h | h
        · exact List.mem_append_left _ (hsub p h)
        · exact List.mem_append_right _ h
    · have hfr : findNode rest s = some (FsNode.dir sub) := by
        have hstep : findNode (FsEntries.cons name node rest) s = findNode rest s := by
          show (if name = s then some node else findNode rest s) = findNode rest s
          rw [if_neg hns]
        rw [← hstep]
        exact hf
      have hrepl : replaceNode (FsEntries.cons name node rest) s (FsNode.dir sub')
          = FsEntries.cons name node (replaceNode rest s (FsNode.dir sub')) := by
        show (if name = s then _ else _) = _
        rw [if_neg hns]
      rw [hrepl] at h
      rw [listEntries_cons_eq] at h ⊢
      by_cases hskip : entrySkipped pfx ign name = true
      · rw [if_pos hskip] at h ⊢
        exact listEntries_replace_dir_subset rest s sub sub' pfx ign p hcr hfr hsub h
      · rw [if_neg hskip] at h ⊢
        cases node with
        | broken => exact h
        | file c r =>
          rcases List.mem_cons.mp h with h | h
          · exact List.mem_cons.mpr (Or.inl h)
          · exact List.mem_cons_of_mem _
              (listEntries_replace_dir_subset rest s sub sub' pfx ign p hcr hfr hsub h)
        | dir es2 =>
          rcases List.mem_append.mp h with h | h
          · exact List.mem_append_left _ h
          · exact List.mem_append_right _
              (listEntries_replace_dir_subset rest s sub sub' pfx ign p hcr hfr hsub h)

theorem listEntries_removeSegs_subset : ∀ (segs : List String) (es : FsEntries)
    (pfx ign : List String) (p : String), cleanEntries es = true →
    p ∈ listEntries (removeSegs segs es) pfx ign → p ∈ listEntries es pfx ign
  | [], es, pfx, ign, p, _, h => h
  | [s], es, pfx, ign, p, hc, h => by
    simp only [removeSegs] at h
    cases hf : findNode es s with
    | none => rw [hf] at h; exact h
    | some v =>
      rw [hf] at h
      cases v with
      | dir sub => exact h
      | file c r => exact listEntries_dropEntry_subset es s pfx ign p hc h
      | broken => exact listEntries_dropEntry_subset es s pfx ign p hc h
  | s :: s2 :: rest, es, pfx, ign, p, hc, h => by
    simp only [removeSegs] at h
    cases hf : findNode es s with
    | none => rw [hf] at h; exact h
    | some v =>
      rw [hf] at h
      cases v with
      | file c r => exact h
      | broken => exact h
      | dir sub =>
        have hcsub : cleanEntries sub = true := by
          have := clean_findNode es s _ hc hf
          simpa [cleanNode] using this
        exact listEntries_replace_dir_subset es s sub (removeSegs (s2 :: rest) sub)
          pfx ign p hc hf
          (fun q hq =>
            listEntries_removeSegs_subset (s2 :: rest) sub (pfx ++ [s]) ign q hcsub hq) h

theorem lookup_removeSegs_none : ∀ (segs : List String) (es : FsEntries) (q : List String),
    wfEntries es = true → lookupSegs q es = none →
    lookupSegs q (removeSegs segs es) = none
  | segs, es, [], _, h => rfl
  | [], es, qh :: qt, _, h => h
  | [s], es, qh :: qt, hw, h => by
    simp only [removeSegs]
    cases hf : findNode es s with
    | none => exact h
    | some v =>
      cases v with
      | dir sub => exact h
      | file c r =>
        by_cases hqs : qh = s
        · subst hqs
          have hnone : findNode (dropEntry es qh) qh = none :=
            findNode_dropEntry_self es qh (wf_names_nodup es hw)
          cases qt with
          | nil => exact hnone
          | cons b t => rw [lookupSegs_cons qh (b :: t) _ (by simp), hnone]
        · rw [lookupSegs_head_congr qh qt _ es (findNode_dropEntry_other es s qh hqs)]
          exact h
      | broken =>
        by_cases hqs : qh = s
        · subst hqs
          have hnone : findNode (dropEntry es qh) qh = none :=
            findNode_dropEntry_self es qh (wf_names_nodup es hw)
          cases qt with
          | nil => exact hnone
          | cons b t => rw [lookupSegs_cons qh (b :: t) _ (by simp), hnone]
        · rw [lookupSegs_head_congr qh qt _ es (findNode_dropEntry_other es s qh hqs)]
          exact h
  | s :: s2 :: rest, es, qh :: qt, hw, h => by
    simp only [removeSegs]
    cases hf : findNode es s with
    | none => exact h
    | some v =>
      cases v with
      | file c r => exact h
      | broken => exact h
      | dir sub =>
        by_cases hqs : qh = s
        · subst hqs
          have hself : findNode (replaceNode es qh (FsNode.dir (removeSegs (s2 :: rest) sub))) qh
              = some (FsNode.dir (removeSegs (s2 :: rest) sub)) :=
            findNode_replaceNode_self es qh _ (by rw [hf]; simp)
          cases qt with
          | nil =>
            exact absurd h
              (by rw [show lookupSegs [qh] es = findNode es qh from rfl, hf]; simp)
          | cons b t =>
            rw [lookupSegs_cons qh (b :: t) _ (by simp), hself]
            have hsubwf : wfEntries sub = true := by
              have := wf_findNode es qh _ hw hf
              simpa [wfNode] using this
            have hq' : lookupSegs (b :: t) sub = none := by
              rw [lookupSegs_cons qh (b :: t) es (by simp), hf] at h
              exact h
            exact lookup_removeSegs_none (s2 :: rest) sub (b :: t) hsubwf hq'
        · rw [lookupSegs_head_congr qh qt _ es (findNode_replaceNode_other es s qh _ hqs)]
          exact h

theorem removeFold_none : ∀ (l : List String) (es : FsEntries) (q : List String),
    wfEntries es = true → lookupSegs q es = none →
    lookupSegs q (l.foldl (fun acc x => removeSegs (splitSlash x) acc) es) = none
  | [], es, q, _, h => h
  | x :: t, es, q, hw, h => by
    rw [List.foldl_cons]
    exact removeFold_none t (removeSegs (splitSlash x) es) q
      (wf_removeSegs (splitSlash x) es hw)
      (lookup_removeSegs_none (splitSlash x) es q hw h)

theorem removeFold_listing_subset : ∀ (l : List String) (es : FsEntries)
    (pfx ign : List String) (p : String), cleanEntries es = true →
    p ∈ listEntries (l.foldl (fun acc x => removeSegs (splitSlash x) acc) es) pfx ign →
    p ∈ listEntries es pfx ign
  | [], es, pfx, ign, p, _, h => h
  | x :: t, es, pfx, ign, p, hc, h => by
    rw [List.foldl_cons] at h
    exact listEntries_removeSegs_subset (splitSlash x) es pfx ign p hc
      (removeFold_listing_subset t _ pfx ign p (clean_removeSegs (splitSlash x) es hc) h)

theorem pairwise_of_nodup_mem {α : Type} (R : α → α → Prop) :
    ∀ (l : List α), l.Nodup → (∀ a ∈ l, ∀ b ∈ l, a ≠ b → R a b) → l.Pairwise R
  | [], _, _ => List.Pairwise.nil
  | x :: t, hnd, hR => by
    obtain ⟨hx, ht⟩ := List.nodup_cons.mp hnd
    refine List.Pairwise.cons ?_ (pairwise_of_nodup_mem R t ht ?_)
    · intro b hb
      exact hR x (List.mem_cons_self x t) b (List.mem_cons_of_mem x hb)
        (fun hEq => hx (hEq ▸ hb))
    · intro a ha b hb hne
      exact hR a (List.mem_cons_of_mem x ha) b (List.mem_cons_of_mem x hb) hne

theorem lookup_file_antichain (es : FsEntries) (a b : List String)
    (ha : a ≠ []) (hfa : ∃ c r, lookupSegs a es = some (FsNode.file c r))
    (hfb : ∃ c r, lookupSegs b es = some (FsNode.file c r))
    (hne : a ≠ b) : ¬(a <+: b) := by
  rintro ⟨t, ht⟩
  obtain ⟨ca, ra, hfa⟩ := hfa
  obtain ⟨cb, rb, hfb⟩ := hfb
  cases t with
  | nil =>
    apply hne
    rw [← ht]
    simp
  | cons x ts =>
    rw [← ht, lookupSegs_append a es (x :: ts) ha (by simp), hfa] at hfb
    cases hfb


/-! ### Write compatibility via lookups -/

theorem compat_lookup_self : ∀ (q : List String) (es : FsEntries), q ≠ [] →
    pathCompatible q es = true →
    lookupSegs q es = none ∨ ∃ c r, lookupSegs q es = some (FsNode.file c r)
  | [], es, hne, _ => absurd rfl hne
  | [s], es, _, hc => by
    simp only [pathCompatible] at hc
    cases hf : findNode es s with
    | none => exact Or.inl hf
    | some v =>
      rw [hf] at hc
      cases v with
      | file c r => exact Or.inr ⟨c, r, hf⟩
      | dir sub => cases hc
      | broken => cases hc
  | s :: s2 :: rest, es, _, hc => by
    simp only [pathCompatible] at hc
    cases hf : findNode es s with
    | none =>
      refine Or.inl ?_
      rw [lookupSegs_cons s (s2 :: rest) es (by simp), hf]
    | some v =>
      rw [hf] at hc
      cases v with
      | file c r => cases hc
      | broken => cases hc
      | dir sub =>
        have hrec := compat_lookup_self (s2 :: rest) sub (by simp) hc
        rw [lookupSegs_cons s (s2 :: rest) es (by simp), hf]
        exact hrec

theorem compat_lookup_prefix : ∀ (q : List String) (es : FsEntries),
    pathCompatible q es = true →
    ∀ pq, pq ≠ [] → pq <+: q → pq ≠ q →
      lookupSegs pq es = none ∨ ∃ sub, lookupSegs pq es = some (FsNode.dir sub)
  | [], es, hc, pq, hne, hpre, hneq => by cases hc
  | [s], es, _, pq, hne, hpre, hneq => by
    exfalso
    obtain ⟨t, ht⟩ := hpre
    cases pq with
    | nil => exact hne rfl
    | cons a pt =>
      cases List.cons.inj ht.symm with
      | intro h1 h2 =>
        cases List.append_eq_nil.mp h2.symm with
        | intro h3 _ => exact hneq (by rw [h1, h3])
  | s :: s2 :: rest, es, hc, pq, hne, hpre, hneq => by
    simp only [pathCompatible] at hc
    cases pq with
    | nil => exact absurd rfl hne
    | cons a pt =>
      obtain ⟨has, hpt⟩ := (List.cons_prefix_cons).mp hpre
      cases hf : findNode es s with
      | none =>
        refine Or.inl ?_
        cases pt with
        | nil =>
          show findNode es a = none
          rw [has, hf]
        | cons b t' =>
          rw [lookupSegs_cons a (b :: t') es (by simp), has, hf]
      | some v =>
        rw [hf] at hc
        cases v with
        | file c r => cases hc
        | broken => cases hc
        | dir sub =>
          cases pt with
          | nil =>
            refine Or.inr ⟨sub, ?_⟩
            show findNode es a = some (FsNode.dir sub)
            rw [has, hf]
          | cons b t' =>
            have hrec := compat_lookup_prefix (s2 :: rest) sub hc (b :: t')
              (by simp) hpt (fun hEq => hneq (by rw [has, hEq]))
            rw [lookupSegs_cons a (b :: t') es (by simp), has, hf]
            exact hrec

theorem compat_of_lookups : ∀ (q : List String) (es : FsEntries), q ≠ [] →
    (∀ pq, pq ≠ [] → pq <+: q → pq ≠ q →
      lookupSegs pq es = none ∨ ∃ sub, lookupSegs pq es = some (FsNode.dir sub)) →
    (lookupSegs q es = none ∨ ∃ c r, lookupSegs q es = some (FsNode.file c r)) →
    pathCompatible q es = true
  | [], es, hne, _, _ => absurd rfl hne
  | [s], es, _, _, hself => by
    simp only [pathCompatible]
    rcases hself with h | ⟨c, r, h⟩
    · have h' : findNode es s = none := h
      rw [h']
    · have h' : findNode es s = some (FsNode.file c r) := h
      rw [h']
  | s :: s2 :: rest, es, _, hpfx, hself => by
    simp only [pathCompatible]
    rcases hpfx [s] (by simp) ⟨s2 :: rest, rfl⟩ (by simp) with h | ⟨sub, h⟩
    · have h' : findNode es s = none := h
      rw [h']
    · have h' : findNode es s = some (FsNode.dir sub) := h
      rw [h']
      refine compat_of_lookups (s2 :: rest) sub (by simp) ?_ ?_
      · intro pq hne1 hpre hneq
        have hstep : lookupSegs (s :: pq) es = lookupSegs pq sub := by
          rw [lookupSegs_cons s pq es hne1, h']
        rw [← hstep]
        exact hpfx (s :: pq) (by simp) ((List.cons_prefix_cons).mpr ⟨rfl, hpre⟩)
          (fun hEq => hneq (List.cons.inj hEq).2)
      · have hstep : lookupSegs (s :: s2 :: rest) es = lookupSegs (s2 :: rest) sub := by
          rw [lookupSegs_cons s (s2 :: rest) es (by simp), h']
        rw [← hstep]
        exact hself

theorem compat_preserved (q segs : List String) (d d' : FsEntries)
    (hq : q ≠ []) (h1 : ¬(segs <+: q)) (h2 : ¬(q <+: segs))
    (hcq : pathCompatible q d = true)
    (hframe : ∀ p, ¬(segs <+: p) → ¬(p <+: segs) → lookupSegs p d' = lookupSegs p d)
    (hspine : ∀ pq, pq ≠ [] → pq <+: segs → pq ≠ segs →
      lookupSegs pq d' = lookupSegs pq d ∨ ∃ sub, lookupSegs pq d' = some (FsNode.dir sub)) :
    pathCompatible q d' = true := by
  refine compat_of_lookups q d' hq ?_ ?_
  · intro pq hne hpre hneq
    by_cases hps : pq <+: segs
    · have hpsne : pq ≠ segs := by
        intro hEq
        exact h1 (hEq ▸ hpre)
      rcases hspine pq hne hps hpsne with heq | ⟨sub, hd⟩
      · rw [heq]
        exact compat_lookup_prefix q d hcq pq hne hpre hneq
      · exact Or.inr ⟨sub, hd⟩
    · by_cases hsp : segs <+: pq
      · exact absurd (hsp.trans hpre) h1
      · rw [hframe pq hsp hps]
        exact compat_lookup_prefix q d hcq pq hne hpre hneq
  · rw [hframe q h1 h2]
    exact compat_lookup_self q d hq hcq


/-! ### One restore-loop iteration on a clean, compatible destination -/

theorem listing_lookup (es : FsEntries) (ign : List String) (p : String)
    (hw : wfEntries es = true) (h : p ∈ listEntries es [] ign) :
    (∃ c r, lookupSegs (splitSlash p) es = some (FsNode.file c r))
      ∧ p = joinSegs (splitSlash p)
      ∧ (∀ s ∈ splitSlash p, validNameB s = true) := by
  obtain ⟨segs, h1, h2, h3, c, r, h4⟩ := listEntries_segs es [] ign p hw (by simp) h
  rw [List.nil_append] at h3
  have hss : splitSlash p = segs := by
    rw [h3]
    exact splitSlash_joinSegs segs h1 h2
  refine ⟨⟨c, r, ?_⟩, ?_, ?_⟩
  · rw [hss]
    exact h4
  · rw [hss]
    exact h3
  · rw [hss]
    exact h2

theorem snapFile_facts (se : FsEntries) (ign : List String) (rel : String)
    (hw : wfEntries se = true) (hc : cleanEntries se = true)
    (h : rel ∈ listEntries se [] ign) :
    lookupSegs (splitSlash rel) se
      = some (FsNode.file (contentAt (FsNode.dir se) rel) true) := by
  obtain ⟨⟨c, r, h4⟩, hjoin, hval⟩ := listing_lookup se ign rel hw h
  have hr : r = true := clean_lookupSegs (splitSlash rel) se c r hc h4
  subst hr
  have hcontent : contentAt (FsNode.dir se) rel = c := contentAt_dir se rel c true h4
  rw [hcontent]
  exact h4

theorem restoreStep_spec (se d : FsEntries) (a b : Nat) (rel : String)
    (hwd : wfEntries d = true) (hcd : cleanEntries d = true)
    (hsnap : lookupSegs (splitSlash rel) se
      = some (FsNode.file (contentAt (FsNode.dir se) rel) true))
    (hval : ∀ s ∈ splitSlash rel, validNameB s = true)
    (hcompat : pathCompatible (splitSlash rel) d = true) :
    ∃ d' a' b',
      restoreStep (FsNode.dir se) false (FsNode.dir d, a, b) rel = (FsNode.dir d', a', b')
      ∧ wfEntries d' = true ∧ cleanEntries d' = true
      ∧ lookupSegs (splitSlash rel) d'
          = some (FsNode.file (contentAt (FsNode.dir se) rel) true)
      ∧ (∀ p, ¬(splitSlash rel <+: p) → ¬(p <+: splitSlash rel) →
          lookupSegs p d' = lookupSegs p d)
      ∧ (∀ pq, pq ≠ [] → pq <+: splitSlash rel → pq ≠ splitSlash rel →
          lookupSegs pq d' = lookupSegs pq d
            ∨ ∃ sub, lookupSegs pq d' = some (FsNode.dir sub)) := by
  have hne : splitSlash rel ≠ [] := by
    intro hEq
    rw [hEq] at hsnap
    cases hsnap
  have hsnapHash : hashFileAt (FsNode.dir se) rel
      = Except.ok (contentAt (FsNode.dir se) rel) :=
    (hashFileAt_dir_ok_iff se rel _).mpr hsnap
  rcases compat_lookup_self (splitSlash rel) d hne hcompat with hlk | ⟨c', r', hlk⟩
  · have hex : existsPath (FsNode.dir d) rel = false := existsPath_dir_none d rel hlk
    obtain ⟨d', hw⟩ :=
      writeSegs_ok (splitSlash rel) d (contentAt (FsNode.dir se) rel) hne hcompat
    refine ⟨d', a + 1, b, ?_, wf_writeSegs _ d d' _ hw hwd hval,
      clean_writeSegs _ d d' _ hw hcd,
      lookup_writeSegs_self _ d d' _ hw,
      fun p hp1 hp2 => lookup_writeSegs_frame _ d d' _ p hw hp1 hp2,
      fun pq hq1 hq2 hq3 => Or.inr (lookup_writeSegs_spine _ d d' _ pq hw hq1 hq2 hq3)⟩
    simp [restoreStep, hsnapHash, hex, writeFileAt, hw, Except.map]
  · have hr' : r' = true := clean_lookupSegs (splitSlash rel) d c' r' hcd hlk
    subst hr'
    have hex : existsPath (FsNode.dir d) rel = true := existsPath_dir_file d rel c' true hlk
    have hdestHash : hashFileAt (FsNode.dir d) rel = Except.ok c' :=
      (hashFileAt_dir_ok_iff d rel c').mpr hlk
    by_cases hceq : c' = contentAt (FsNode.dir se) rel
    · subst hceq
      refine ⟨d, a, b + 1, ?_, hwd, hcd, hlk, fun p _ _ => rfl, fun pq _ _ _ => Or.inl rfl⟩
      simp [restoreStep, hsnapHash, hex, hdestHash, Except.map]
    · obtain ⟨d', hw⟩ :=
        writeSegs_ok (splitSlash rel) d (contentAt (FsNode.dir se) rel) hne hcompat
      refine ⟨d', a + 1, b, ?_, wf_writeSegs _ d d' _ hw hwd hval,
        clean_writeSegs _ d d' _ hw hcd,
        lookup_writeSegs_self _ d d' _ hw,
        fun p hp1 hp2 => lookup_writeSegs_frame _ d d' _ p hw hp1 hp2,
        fun pq hq1 hq2 hq3 => Or.inr (lookup_writeSegs_spine _ d d' _ pq hw hq1 hq2 hq3)⟩
      simp [restoreStep, hsnapHash, hex, hdestHash, writeFileAt, hw, Except.map, hceq]


/-! ### The two passes of `restoreSnapshot` -/

theorem restore_phase1_fold : ∀ (l : List String) (se d : FsEntries) (a b : Nat),
    wfEntries d = true → cleanEntries d = true →
    (∀ rel ∈ l, lookupSegs (splitSlash rel) se
      = some (FsNode.file (contentAt (FsNode.dir se) rel) true)) →
    (∀ rel ∈ l, ∀ s ∈ splitSlash rel, validNameB s = true) →
    (∀ rel ∈ l, pathCompatible (splitSlash rel) d = true) →
    List.Pairwise (fun x y => ¬(splitSlash x <+: splitSlash y)
      ∧ ¬(splitSlash y <+: splitSlash x)) l →
    ∃ d' a' b',
      l.foldl (restoreStep (FsNode.dir se) false) (FsNode.dir d, a, b)
          = (FsNode.dir d', a', b')
      ∧ wfEntries d' = true ∧ cleanEntries d' = true
      ∧ (∀ rel ∈ l, lookupSegs (splitSlash rel) d'
          = some (FsNode.file (contentAt (FsNode.dir se) rel) true))
      ∧ (∀ p, (∀ rel ∈ l, ¬(splitSlash rel <+: p) ∧ ¬(p <+: splitSlash rel)) →
          lookupSegs p d' = lookupSegs p d)
  | [], se, d, a, b, hwd, hcd, _, _, _, _ =>
    ⟨d, a, b, rfl, hwd, hcd, by simp, fun p _ => rfl⟩
  | rel :: t, se, d, a, b, hwd, hcd, hsnap, hval, hcompat, hpair => by
    obtain ⟨hpairhd, hpairtl⟩ := List.pairwise_cons.mp hpair
    obtain ⟨d1, a1, b1, heq1, hwd1, hcd1, hlk1, hframe1, hspine1⟩ :=
      restoreStep_spec se d a b rel hwd hcd
        (hsnap rel (List.mem_cons_self _ _)) (hval rel (List.mem_cons_self _ _))
        (hcompat rel (List.mem_cons_self _ _))
    have hsneq : ∀ x ∈ t, splitSlash x ≠ [] := by
      intro x hx hEq
      have hx' := hsnap x (List.mem_cons_of_mem _ hx)
      rw [hEq] at hx'
      cases hx'
    have hcompat1 : ∀ x ∈ t, pathCompatible (splitSlash x) d1 = true := by
      intro x hx
      obtain ⟨hp1, hp2⟩ := hpairhd x hx
      exact compat_preserved (splitSlash x) (splitSlash rel) d d1 (hsneq x hx)
        hp1 hp2 (hcompat x (List.mem_cons_of_mem _ hx)) hframe1 hspine1
    obtain ⟨d', a', b', heq2, hwd', hcd', hlk', hframe'⟩ :=
      restore_phase1_fold t se d1 a1 b1 hwd1 hcd1
        (fun x hx => hsnap x (List.mem_cons_of_mem _ hx))
        (fun x hx => hval x (List.mem_cons_of_mem _ hx))
        hcompat1 hpairtl
    refine ⟨d', a', b', ?_, hwd', hcd', ?_, ?_⟩
    · rw [List.foldl_cons, heq1, heq2]
    · intro x hx
      rcases List.mem_cons.mp hx with hx | hx
      · subst hx
        rw [hframe' (splitSlash x) (fun y hy => ⟨(hpairhd y hy).2, (hpairhd y hy).1⟩)]
        exact hlk1
      · exact hlk' x hx
    · intro p hp
      rw [hframe' p (fun y hy => hp y (List.mem_cons_of_mem _ hy)),
          hframe1 p (hp rel (List.mem_cons_self _ _)).1 (hp rel (List.mem_cons_self _ _)).2]

theorem removeFold_spec : ∀ (l : List String) (es : FsEntries),
    wfEntries es = true → cleanEntries es = true →
    (∀ q ∈ l, ∃ c r, lookupSegs (splitSlash q) es = some (FsNode.file c r)) →
    List.Pairwise (fun x y => splitSlash x ≠ splitSlash y) l →
    wfEntries (l.foldl (fun acc x => removeSegs (splitSlash x) acc) es) = true
    ∧ cleanEntries (l.foldl (fun acc x => removeSegs (splitSlash x) acc) es) = true
    ∧ (∀ q ∈ l, lookupSegs (splitSlash q)
        (l.foldl (fun acc x => removeSegs (splitSlash x) acc) es) = none)
    ∧ (∀ p, (∃ c r, lookupSegs (splitSlash p) es = some (FsNode.file c r)) →
        (∀ q ∈ l, splitSlash q ≠ splitSlash p) →
        lookupSegs (splitSlash p)
          (l.foldl (fun acc x => removeSegs (splitSlash x) acc) es)
          = lookupSegs (splitSlash p) es)
  | [], es, hw, hc, _, _ => ⟨hw, hc, by simp, fun p _ _ => rfl⟩
  | q :: t, es, hw, hc, hlk, hpair => by
    obtain ⟨hpairhd, hpairtl⟩ := List.pairwise_cons.mp hpair
    obtain ⟨cq, rq, hq⟩ := hlk q (List.mem_cons_self _ _)
    have hqne : splitSlash q ≠ [] := by
      intro hEq
      rw [hEq] at hq
      cases hq
    have hanti : ∀ x, (∃ c r, lookupSegs (splitSlash x) es = some (FsNode.file c r)) →
        splitSlash q ≠ splitSlash x →
        ¬(splitSlash q <+: splitSlash x) ∧ ¬(splitSlash x <+: splitSlash q) := by
      intro x hx hne
      have hxne : splitSlash x ≠ [] := by
        obtain ⟨c, r, hx'⟩ := hx
        intro hEq
        rw [hEq] at hx'
        cases hx'
      exact ⟨lookup_file_antichain es (splitSlash q) (splitSlash x) hqne ⟨cq, rq, hq⟩ hx hne,
        lookup_file_antichain es (splitSlash x) (splitSlash q) hxne hx ⟨cq, rq, hq⟩
          (fun hEq => hne hEq.symm)⟩
    have hstep : ∀ x, (∃ c r, lookupSegs (splitSlash x) es = some (FsNode.file c r)) →
        splitSlash q ≠ splitSlash x →
        lookupSegs (splitSlash x) (removeSegs (splitSlash q) es)
          = lookupSegs (splitSlash x) es := by
      intro x hx hne
      obtain ⟨h1, h2⟩ := hanti x hx hne
      exact lookup_removeSegs_frame (splitSlash q) es (splitSlash x) h1 h2
    have hw1 : wfEntries (removeSegs (splitSlash q) es) = true := wf_removeSegs _ es hw
    have hc1 : cleanEntries (removeSegs (splitSlash q) es) = true := clean_removeSegs _ es hc
    have hlk1 : ∀ x ∈ t, ∃ c r,
        lookupSegs (splitSlash x) (removeSegs (splitSlash q) es)
          = some (FsNode.file c r) := by
      intro x hx
      obtain ⟨c, r, hxl⟩ := hlk x (List.mem_cons_of_mem _ hx)
      refine ⟨c, r, ?_⟩
      rw [hstep x ⟨c, r, hxl⟩ (hpairhd x hx)]
      exact hxl
    obtain ⟨hwR, hcR, hnoneR, hframeR⟩ :=
      removeFold_spec t (removeSegs (splitSlash q) es) hw1 hc1 hlk1 hpairtl
    simp only [List.foldl_cons]
    refine ⟨hwR, hcR, ?_, ?_⟩
    · intro x hx
      rcases List.mem_cons.mp hx with hx | hx
      · subst hx
        have hqnone : lookupSegs (splitSlash x) (removeSegs (splitSlash x) es) = none :=
          lookup_removeSegs_self (splitSlash x) es hw ⟨cq, rq, hq⟩
        exact removeFold_none t _ (splitSlash x) hw1 hqnone
      · exact hnoneR x hx
    · intro p hp hne
      obtain ⟨c, r, hpl⟩ := hp
      have hp' : ∃ c r, lookupSegs (splitSlash p) es = some (FsNode.file c r) := ⟨c, r, hpl⟩
      have hqp : splitSlash q ≠ splitSlash p := hne q (List.mem_cons_self _ _)
      have hp1 : ∃ c r, lookupSegs (splitSlash p) (removeSegs (splitSlash q) es)
          = some (FsNode.file c r) := by
        refine ⟨c, r, ?_⟩
        rw [hstep p hp' hqp]
        exact hpl
      rw [hframeR p hp1 (fun x hx => hne x (List.mem_cons_of_mem _ hx)), hstep p hp' hqp]

theorem restore_skip_fold : ∀ (l : List String) (se d : FsEntries) (a b : Nat),
    (∀ rel ∈ l, lookupSegs (splitSlash rel) se
      = some (FsNode.file (contentAt (FsNode.dir se) rel) true)) →
    (∀ rel ∈ l, lookupSegs (splitSlash rel) d
      = some (FsNode.file (contentAt (FsNode.dir se) rel) true)) →
    l.foldl (restoreStep (FsNode.dir se) false) (FsNode.dir d, a, b)
      = (FsNode.dir d, a, b + l.length)
  | [], se, d, a, b, _, _ => by simp
  | rel :: t, se, d, a, b, hsnap, hdest => by
    have hsnapHash : hashFileAt (FsNode.dir se) rel
        = Except.ok (contentAt (FsNode.dir se) rel) :=
      (hashFileAt_dir_ok_iff se rel _).mpr (hsnap rel (List.mem_cons_self _ _))
    have hex : existsPath (FsNode.dir d) rel = true :=
      existsPath_dir_file d rel _ true (hdest rel (List.mem_cons_self _ _))
    have hdestHash : hashFileAt (FsNode.dir d) rel
        = Except.ok (contentAt (FsNode.dir se) rel) :=
      (hashFileAt_dir_ok_iff d rel _).mpr (hdest rel (List.mem_cons_self _ _))
    have hstep : restoreStep (FsNode.dir se) false (FsNode.dir d, a, b) rel
        = (FsNode.dir d, a, b + 1) := by
      simp [restoreStep, hsnapHash, hex, hdestHash, Except.map]
    rw [List.foldl_cons, hstep,
      restore_skip_fold t se d a (b + 1)
        (fun x hx => hsnap x (List.mem_cons_of_mem _ hx))
        (fun x hx => hdest x (List.mem_cons_of_mem _ hx))]
    simp
    omega

theorem phase2_shape : ∀ (l : List String) (es : FsEntries) (k : Nat),
    l.foldl (fun (st : FsNode × Nat) relPath =>
        if false then (st.1, st.2 + 1) else (removeAt st.1 relPath, st.2 + 1))
      (FsNode.dir es, k)
      = (FsNode.dir (l.foldl (fun acc q => removeSegs (splitSlash q) acc) es),
         k + l.length)
  | [], es, k => by simp
  | q :: t, es, k => by
    rw [List.foldl_cons, if_neg (by simp), List.foldl_cons]
    have hrem : removeAt (FsNode.dir es) q = FsNode.dir (removeSegs (splitSlash q) es) := rfl
    show t.foldl _ (removeAt (FsNode.dir es) q, k + 1) = _
    rw [hrem, phase2_shape t (removeSegs (splitSlash q) es) (k + 1)]
    simp
    omega


/-! ### Restore idempotence on clean, compatible trees -/

theorem restore_idempotent_core (se de : FsEntries) (ign : List String)
    (hwS : wfEntries se = true) (hcS : cleanEntries se = true)
    (hwD : wfEntries de = true) (hcD : cleanEntries de = true)
    (hcompat : ∀ rel ∈ listFilesRecursively (FsNode.dir se) ign,
      pathCompatible (splitSlash rel) de = true) :
    (restoreSnapshot (FsNode.dir se)
        (restoreSnapshot (FsNode.dir se) (FsNode.dir de) ign false).1 ign false).1
      = (restoreSnapshot (FsNode.dir se) (FsNode.dir de) ign false).1
    ∧ (restoreSnapshot (FsNode.dir se)
        (restoreSnapshot (FsNode.dir se) (FsNode.dir de) ign false).1 ign false).2
      = ⟨0, (listFilesRecursively (FsNode.dir se) ign).length, 0⟩ := by
  have hsnapF : ∀ rel ∈ listEntries se [] ign,
      lookupSegs (splitSlash rel) se
        = some (FsNode.file (contentAt (FsNode.dir se) rel) true) :=
    fun rel h => snapFile_facts se ign rel hwS hcS h
  have hvalF : ∀ rel ∈ listEntries se [] ign, ∀ s ∈ splitSlash rel, validNameB s = true :=
    fun rel h => (listing_lookup se ign rel hwS h).2.2
  have hjoinF : ∀ rel ∈ listEntries se [] ign, rel = joinSegs (splitSlash rel) :=
    fun rel h => (listing_lookup se ign rel hwS h).2.1
  have hnodupS : (listEntries se [] ign).Nodup := listEntries_nodup se [] ign hwS (by simp)
  have hpairS : List.Pairwise (fun x y => ¬(splitSlash x <+: splitSlash y)
      ∧ ¬(splitSlash y <+: splitSlash x)) (listEntries se [] ign) := by
    refine pairwise_of_nodup_mem _ _ hnodupS ?_
    intro x hx y hy hne
    exact ⟨listing_antichain se ign x y hwS hx hy hne,
           listing_antichain se ign y x hwS hy hx (fun hEq => hne hEq.symm)⟩
  obtain ⟨dw, a1, b1, heqP1, hwDW, hcDW, hlkDW, _⟩ :=
    restore_phase1_fold (listEntries se [] ign) se de 0 0 hwD hcD hsnapF hvalF
      (fun rel h => hcompat rel h) hpairS
  have hlkTD : ∀ p ∈ (listEntries dw [] ign).filter
      (fun p => !(listEntries se [] ign).contains p),
      ∃ c r, lookupSegs (splitSlash p) dw = some (FsNode.file c r) :=
    fun p hp => (listing_lookup dw ign p hwDW (List.mem_of_mem_filter hp)).1
  have hjoinDW : ∀ p ∈ listEntries dw [] ign, p = joinSegs (splitSlash p) :=
    fun p h => (listing_lookup dw ign p hwDW h).2.1
  have hnotSnapTD : ∀ p ∈ (listEntries dw [] ign).filter
      (fun p => !(listEntries se [] ign).contains p), p ∉ listEntries se [] ign := by
    intro p hp hmem
    have hcond := (List.mem_filter.mp hp).2
    rw [(contains_iff_mem _ _).mpr hmem] at hcond
    cases hcond
  have hTDnodup : ((listEntries dw [] ign).filter
      (fun p => !(listEntries se [] ign).contains p)).Nodup :=
    (listEntries_nodup dw [] ign hwDW (by simp)).filter _
  have hpairTD : List.Pairwise (fun x y => splitSlash x ≠ splitSlash y)
      ((listEntries dw [] ign).filter (fun p => !(listEntries se [] ign).contains p)) := by
    refine pairwise_of_nodup_mem _ _ hTDnodup ?_
    intro x hx y hy hne hEq
    apply hne
    rw [hjoinDW x (List.mem_of_mem_filter hx), hjoinDW y (List.mem_of_mem_filter hy), hEq]
  obtain ⟨hwD1, hcD1, hnoneD1, hframeD1⟩ :=
    removeFold_spec ((listEntries dw [] ign).filter
      (fun p => !(listEntries se [] ign).contains p)) dw hwDW hcDW hlkTD hpairTD
  have hrun1 : restoreSnapshot (FsNode.dir se) (FsNode.dir de) ign false
      = (FsNode.dir (((listEntries dw [] ign).filter
            (fun p => !(listEntries se [] ign).contains p)).foldl
            (fun acc x => removeSegs (splitSlash x) acc) dw),
         ⟨a1, b1, 0 + ((listEntries dw [] ign).filter
            (fun p => !(listEntries se [] ign).contains p)).length⟩) := by
    unfold restoreSnapshot
    dsimp only
    rw [show listFilesRecursively (FsNode.dir se) ign = listEntries se [] ign from rfl,
        heqP1]
    dsimp only
    rw [show listFilesRecursively (FsNode.dir dw) ign = listEntries dw [] ign from rfl,
        phase2_shape]
  have hA : ∀ rel ∈ listEntries se [] ign,
      lookupSegs (splitSlash rel)
          (((listEntries dw [] ign).filter
            (fun p => !(listEntries se [] ign).contains p)).foldl
            (fun acc x => removeSegs (splitSlash x) acc) dw)
        = some (FsNode.file (contentAt (FsNode.dir se) rel) true) := by
    intro rel h
    have hfr := hframeD1 rel ⟨contentAt (FsNode.dir se) rel, true, hlkDW rel h⟩ ?_
    · rw [hfr]
      exact hlkDW rel h
    · intro q hq hEq
      apply hnotSnapTD q hq
      rw [hjoinDW q (List.mem_of_mem_filter hq), hEq, ← hjoinF rel h]
      exact h
  have hB : ∀ p ∈ listEntries
      (((listEntries dw [] ign).filter
        (fun p => !(listEntries se [] ign).contains p)).foldl
        (fun acc x => removeSegs (splitSlash x) acc) dw) [] ign,
      p ∈ listEntries se [] ign := by
    intro p hp
    have hpDW : p ∈ listEntries dw [] ign :=
      removeFold_listing_subset _ dw [] ign p hcDW hp
    by_cases hmem : p ∈ listEntries se [] ign
    · exact hmem
    · exfalso
      have hpTD : p ∈ (listEntries dw [] ign).filter
          (fun p => !(listEntries se [] ign).contains p) :=
        List.mem_filter.mpr ⟨hpDW, by rw [contains_eq_false_of_not_mem hmem]; rfl⟩
      have hnone := hnoneD1 p hpTD
      obtain ⟨⟨c, r, hlk⟩, _, _⟩ := listing_lookup _ ign p hwD1 hp
      rw [hnone] at hlk
      cases hlk
  have hrun2fold := restore_skip_fold (listEntries se [] ign) se
    (((listEntries dw [] ign).filter
      (fun p => !(listEntries se [] ign).contains p)).foldl
      (fun acc x => removeSegs (splitSlash x) acc) dw) 0 0 hsnapF hA
  have htd2 : (listEntries
      (((listEntries dw [] ign).filter
        (fun p => !(listEntries se [] ign).contains p)).foldl
        (fun acc x => removeSegs (splitSlash x) acc) dw) [] ign).filter
      (fun p => !(listEntries se [] ign).contains p) = [] := by
    rw [List.filter_eq_nil_iff]
    intro p hp
    rw [(contains_iff_mem _ _).mpr (hB p hp)]
    intro hfalse
    cases hfalse
  have hrun2 : restoreSnapshot (FsNode.dir se)
      (FsNode.dir (((listEntries dw [] ign).filter
        (fun p => !(listEntries se [] ign).contains p)).foldl
        (fun acc x => removeSegs (splitSlash x) acc) dw)) ign false
      = (FsNode.dir (((listEntries dw [] ign).filter
          (fun p => !(listEntries se [] ign).contains p)).foldl
          (fun acc x => removeSegs (splitSlash x) acc) dw),
         ⟨0, 0 + (listEntries se [] ign).length, 0⟩) := by
    unfold restoreSnapshot
    dsimp only
    rw [show listFilesRecursively (FsNode.dir se) ign = listEntries se [] ign from rfl,
        hrun2fold]
    dsimp only
    rw [show listFilesRecursively
        (FsNode.dir (((listEntries dw [] ign).filter
          (fun p => !(listEntries se [] ign).contains p)).foldl
          (fun acc x => removeSegs (splitSlash x) acc) dw)) ign
        = listEntries (((listEntries dw [] ign).filter
          (fun p => !(listEntries se [] ign).contains p)).foldl
          (fun acc x => removeSegs (splitSlash x) acc) dw) [] ign from rfl,
        htd2]
    rfl
  constructor
  · rw [hrun1]
    dsimp only
    rw [hrun2]
  · rw [hrun1]
    dsimp only
    rw [hrun2]
    dsimp only
    rw [Nat.zero_add]
    rfl


/-- C7 counterexample: restore is not idempotent for every snapshot and
destination.  With snapshot `a/b` (content `x`) and a destination file `a`
(content `y`), run one cannot create directory `a` (a file is in the way),
counts the file as skipped, then prunes the blocking file `a`; run two finds
the path free and performs one real write, so its counts report
`restored = 1` instead of zero writes. -/
theorem restore_not_idempotent_counterexample :
    (restoreSnapshot
      (FsNode.dir (FsEntries.cons "a"
        (FsNode.dir (FsEntries.cons "b" (FsNode.file "x" true) FsEntries.nil))
        FsEntries.nil))
      (restoreSnapshot
        (FsNode.dir (FsEntries.cons "a"
          (FsNode.dir (FsEntries.cons "b" (FsNode.file "x" true) FsEntries.nil))
          FsEntries.nil))
        (FsNode.dir (FsEntries.cons "a" (FsNode.file "y" true) FsEntries.nil))
        [] false).1
      [] false).2
    = ⟨1, 0, 0⟩ := by decide

/-- C7 amended: live-mode restore is idempotent on well-formed, clean
snapshot and destination trees provided every snapshot file path is
writable into the destination (each proper prefix of the path resolves in
the destination to a directory or to nothing, and the path itself to a file
or to nothing).  Then the second `restoreSnapshot` run leaves the tree
produced by the first run unchanged and reports zero `restored` and zero
`deleted`, with every snapshot file counted as `skipped` because its hash
matches.  Without the writability proviso idempotence fails: a destination
file blocking a snapshot directory prefix is skipped in run one, the
blocker is pruned by run one's deletion pass, and run two then performs a
real write. -/
theorem restore_idempotent_amended (se de : FsEntries) (ign : List String)
    (hwS : wfEntries se = true) (hcS : cleanEntries se = true)
    (hwD : wfEntries de = true) (hcD : cleanEntries de = true)
    (hcompat : ∀ rel ∈ listFilesRecursively (FsNode.dir se) ign,
      pathCompatible (splitSlash rel) de = true) :
    (restoreSnapshot (FsNode.dir se)
        (restoreSnapshot (FsNode.dir se) (FsNode.dir de) ign false).1 ign false).1
      = (restoreSnapshot (FsNode.dir se) (FsNode.dir de) ign false).1
    ∧ (restoreSnapshot (FsNode.dir se)
        (restoreSnapshot (FsNode.dir se) (FsNode.dir de) ign false).1 ign false).2
      = ⟨0, (listFilesRecursively (FsNode.dir se) ign).length, 0⟩ :=
  restore_idempotent_core se de ign hwS hcS hwD hcD hcompat

/-- Witness for the amended C7: a one-file snapshot restored into an empty
destination; the second run reports zero restored, zero deleted, one
skipped. -/
theorem restore_idempotent_amended_witness :
    (restoreSnapshot (FsNode.dir (FsEntries.cons "a" (FsNode.file "x" true) FsEntries.nil))
        (restoreSnapshot (FsNode.dir (FsEntries.cons "a" (FsNode.file "x" true) FsEntries.nil))
          (FsNode.dir FsEntries.nil) [] false).1 [] false).2
      = ⟨0, 1, 0⟩ := by
  have h := restore_idempotent_amended
    (FsEntries.cons "a" (FsNode.file "x" true) FsEntries.nil)
    FsEntries.nil [] (by decide) (by decide) (by decide) (by decide) (by decide)
  exact h.2.trans (by decide)

end Snapshot
